import Mathlib

/-!
Verification of the QA-Demo test sequencing and execution engine.

The definitions below are shallow embeddings of the Python sources:
  * `src/langchain_config/agents/test_management_agent.py`
      (`TestSequenceTool._calculate_execution_order`,
       `TestSequenceTool._group_by_execution_phases`,
       `TestDependencyTool._run` dependency loop)
  * `src/langchain_config/generic_tools.py`
      (`CompareTool`, `DateRangeTool`, `ValidationTool`, `GenericToolFactory`)
  * `src/agents/compare.py` (`equals`, `rounded_equality`)
  * `src/langchain_config/agents/test_execution_agent.py`
      (`TestExecutionAgent._execute_with_retry`)
  * `src/langchain_config/orchestration_agents.py`
      (skip branch of `EnhancedTestExecutionAgent.execute_enhanced_test`)
  * `src/langchain_web_demo.py` (result aggregation in `run_langchain_workflow`)

Python dictionaries keyed by strings are modelled as functions `String → _`
together with an explicit insertion-ordered key list where iteration order
matters; Python machine integers are `Int`/`Nat`; exact decimal values
(`decimal.Decimal` built from the shortest decimal representation) are `ℚ`.
Wall-clock timestamps and the rendering of operand values into human-readable
messages are not modelled; `time.sleep` calls and tool invocations are counted
explicitly where a claim is about them.
-/

namespace QADemo

/-- `TestDAGNode` from `langchain_config/schemas.py`, restricted to the fields
the sequencing and execution functions consume (`tool_config` is only passed
through untouched by these functions). -/
structure TestNode where
  test_id : String
  dependencies : List String
  parallel_execution : Bool
  retry_count : Nat
  timeout : Nat
deriving Repr, DecidableEq

/-- The test ids of a node list, in order. -/
def nodeIds (nodes : List TestNode) : List String :=
  nodes.map (fun nd => nd.test_id)

/-- Dependencies of the first node carrying a given id (Python
`node_map[test_id].dependencies`; `[]` when the id is absent). -/
def depsOf (nodes : List TestNode) (x : String) : List String :=
  match nodes.find? (fun nd => nd.test_id = x) with
  | some nd => nd.dependencies
  | none => []

/-- Edge relation of the dependency graph: `depRel nodes d x` holds when some
node with id `x` lists `d` among its dependencies. -/
def depRel (nodes : List TestNode) (d x : String) : Prop :=
  ∃ nd ∈ nodes, nd.test_id = x ∧ d ∈ nd.dependencies

/-- Python `dict` key insertion: a key is appended on first mention only. -/
def dictInsert (ks : List String) (k : String) : List String :=
  if k ∈ ks then ks else ks ++ [k]

/-- Insertion-ordered key list of the `in_degree` dict built by
`_calculate_execution_order` (keys are created by `in_degree[node.test_id] = 0`). -/
def inDegreeKeys (nodes : List TestNode) : List String :=
  nodes.foldl (fun ks nd => dictInsert ks nd.test_id) []

/-- The `in_degree` map built by `_calculate_execution_order`:
`in_degree[node.test_id] = 0`, then `in_degree[node.test_id] += 1` once per
dependency entry.  Values are `Int` exactly as Python integers. -/
def buildInDegree (nodes : List TestNode) : String → Int :=
  nodes.foldl
    (fun m nd =>
      nd.dependencies.foldl
        (fun m2 _ => Function.update m2 nd.test_id (m2 nd.test_id + 1))
        (Function.update m nd.test_id 0))
    (fun _ => 0)

/-- The adjacency map built by `_calculate_execution_order`:
`graph[dep].append(node.test_id)` once per dependency entry. -/
def buildGraph (nodes : List TestNode) : String → List String :=
  nodes.foldl
    (fun g nd =>
      nd.dependencies.foldl
        (fun g2 dep => Function.update g2 dep (g2 dep ++ [nd.test_id]))
        g)
    (fun _ => [])

/-- Inner loop body of the topological sort: for each `neighbor` of the popped
node, decrement its indegree and enqueue it when the count reaches zero. -/
def processNeighbors (neighbors : List String) (indeg : String → Int)
    (queue : List String) : (String → Int) × List String :=
  neighbors.foldl
    (fun st nb =>
      let v := st.1 nb - 1
      (Function.update st.1 nb v, if v = 0 then st.2 ++ [nb] else st.2))
    (indeg, queue)

/-- The `while queue:` loop of Kahn's sort. `fuel` is a structural bound on the
number of iterations; each iteration pops one queue element, and a key can be
enqueued at most twice over a whole run, so `2 * nodes.length + 1` fuel (used
by `calculateExecutionOrder`) always exhausts the queue. -/
def kahnLoop (graph : String → List String) :
    Nat → List String → (String → Int) → List String → List String
  | 0, _, _, order => order
  | _ + 1, [], _, order => order
  | fuel + 1, current :: rest, indeg, order =>
      let st := processNeighbors (graph current) indeg rest
      kahnLoop graph fuel st.2 st.1 (order ++ [current])

/-- `TestSequenceTool._calculate_execution_order`: Kahn's topological sort;
raising `ValueError("Circular dependency detected in test DAG")` is modelled
as `Except.error` of the message. -/
def calculateExecutionOrder (nodes : List TestNode) : Except String (List String) :=
  let indeg := buildInDegree nodes
  let graph := buildGraph nodes
  let queue := (inDegreeKeys nodes).filter (fun k => indeg k = 0)
  let order := kahnLoop graph (2 * nodes.length + 1) queue indeg []
  if order.length = nodes.length then Except.ok order
  else Except.error "Circular dependency detected in test DAG"

/-- Loop invariant of Kahn's sort as implemented by
`_calculate_execution_order`: the popped `order` and pending `queue` are
duplicate-free node ids, queued nodes have all dependencies already popped,
`in_degree` counts each node's not-yet-popped dependency entries, popped nodes
respect dependency order, and a node absent from both still has an unpopped
dependency. -/
structure KahnInv (nodes : List TestNode) (queue : List String)
    (indeg : String → Int) (order : List String) : Prop where
  order_nodup : order.Nodup
  order_sub : ∀ x ∈ order, x ∈ nodeIds nodes
  queue_nodup : queue.Nodup
  queue_sub : ∀ x ∈ queue, x ∈ nodeIds nodes
  queue_fresh : ∀ x ∈ queue, x ∉ order
  queue_ready : ∀ x ∈ queue, ∀ d ∈ depsOf nodes x, d ∈ order
  indeg_spec : ∀ x ∈ nodeIds nodes,
    indeg x = (((depsOf nodes x).filter (fun d => decide (d ∉ order))).length : Int)
  deps_before : ∀ x ∈ order, ∀ d ∈ depsOf nodes x,
    d ∈ order ∧ order.indexOf d < order.indexOf x
  pending_dep : ∀ x ∈ nodeIds nodes, x ∉ order → x ∉ queue →
    ∃ d ∈ depsOf nodes x, d ∉ order

/-- One test entry inside an execution phase
(`_group_by_execution_phases` emits these dicts). -/
structure PhaseTest where
  test_id : String
  parallel : Bool
  dependencies : List String
  timeout : Nat
  retry_count : Nat
deriving Repr, DecidableEq

/-- One execution phase (`phase_type` is `"parallel"` or `"sequential"`;
`max_parallel` is only attached to parallel phases). -/
structure Phase where
  phase_type : String
  tests : List PhaseTest
  max_parallel : Option Nat
deriving Repr, DecidableEq

/-- The phase-entry dict built for a node. -/
def phaseEntry (nd : TestNode) (par : Bool) : PhaseTest :=
  { test_id := nd.test_id
    parallel := par
    dependencies := nd.dependencies
    timeout := nd.timeout
    retry_count := nd.retry_count }

/-- A parallel phase wrapping the accumulated entries. -/
def mkParallelPhase (tests : List PhaseTest) (maxPar : Nat) : Phase :=
  { phase_type := "parallel", tests := tests, max_parallel := some maxPar }

/-- A singleton sequential phase for one node. -/
def mkSequentialPhase (nd : TestNode) : Phase :=
  { phase_type := "sequential", tests := [phaseEntry nd false], max_parallel := none }

/-- Loop of `_group_by_execution_phases` over the execution order, carrying the
`current_phase` accumulator and the emitted `phases`.  A `test_id` absent from
`node_map` raises `KeyError` in Python, modelled as `none`. -/
def groupPhasesGo (nodes : List TestNode) (maxPar : Nat) :
    List String → List PhaseTest → List Phase → Option (List Phase)
  | [], current, phases =>
      some (if current.isEmpty then phases else phases ++ [mkParallelPhase current maxPar])
  | tid :: rest, current, phases =>
      match nodes.find? (fun nd => nd.test_id = tid) with
      | none => none
      | some nd =>
          if nd.parallel_execution then
            groupPhasesGo nodes maxPar rest (current ++ [phaseEntry nd true]) phases
          else
            groupPhasesGo nodes maxPar rest []
              ((phases ++ (if current.isEmpty then [] else [mkParallelPhase current maxPar]))
                ++ [mkSequentialPhase nd])

/-- `TestSequenceTool._group_by_execution_phases`. -/
def groupByExecutionPhases (order : List String) (nodes : List TestNode)
    (maxPar : Nat) : Option (List Phase) :=
  groupPhasesGo nodes maxPar order [] []

/-- The phase entry produced for an id by `_group_by_execution_phases`
(both branches copy the node's own `parallel_execution` flag into the entry). -/
def entryOf (nodes : List TestNode) (tid : String) : Option PhaseTest :=
  (nodes.find? (fun nd => nd.test_id = tid)).map
    (fun nd => phaseEntry nd nd.parallel_execution)

/-- Shape of a phase emitted by `_group_by_execution_phases`: a singleton
sequential phase for a non-parallel node, or a nonempty parallel phase all of
whose entries are parallel-eligible. -/
def WellFormedPhase (ph : Phase) : Prop :=
  (ph.phase_type = "sequential" ∧ ∃ t, ph.tests = [t] ∧ t.parallel = false) ∨
  (ph.phase_type = "parallel" ∧ ph.tests ≠ [] ∧ ∀ t ∈ ph.tests, t.parallel = true)

/-- `OperationType` from `langchain_config/schemas.py` (`exists`/`not_exists`
get an `Op` suffix because `exists` is reserved in Lean). -/
inductive OperationType where
  | equals
  | not_equals
  | greater_than
  | less_than
  | in_range
  | contains
  | existsOp
  | notExistsOp
  | rounded_equality
deriving Repr, DecidableEq

/-- The `.value` string of an operation (also what Python's f-string prints
for a `str`-mixin enum member). -/
def opValue : OperationType → String
  | .equals => "equals"
  | .not_equals => "not_equals"
  | .greater_than => "greater_than"
  | .less_than => "less_than"
  | .in_range => "in_range"
  | .contains => "contains"
  | .existsOp => "exists"
  | .notExistsOp => "not_exists"
  | .rounded_equality => "rounded_equality"

/-- `TestType` from `langchain_config/schemas.py`. -/
inductive TestType where
  | compare
  | validate_presence
  | date_range_check
  | equality_check
  | rounded_equality
deriving Repr, DecidableEq

/-- Python values as they flow through the generic tools.  `num` carries the
exact decimal value of a numeric literal (ints and round-trippable floats);
`pydate` is a `datetime` collapsed to a day number (time of day is not
modelled).  Dicts are modelled as ordered association lists with string keys. -/
inductive PyVal where
  | none
  | boolean (b : Bool)
  | num (q : ℚ)
  | str (s : String)
  | pydate (d : Int)
  | list (xs : List PyVal)
  | dict (fields : List (String × PyVal))
deriving Repr

/-- Python's `x is None` identity test. -/
def PyVal.isNone : PyVal → Bool
  | .none => true
  | _ => false

/-- Python `==` over `PyVal` (numeric equality identifies `bool` with 0/1 as in
Python; the same coercion nested inside lists/dicts is handled recursively). -/
def pyEq : PyVal → PyVal → Bool
  | .none, .none => true
  | .boolean a, .boolean b => a == b
  | .boolean a, .num q => (if a then (1 : ℚ) else 0) == q
  | .num q, .boolean b => q == (if b then (1 : ℚ) else 0)
  | .num a, .num b => a == b
  | .str a, .str b => a == b
  | .pydate a, .pydate b => a == b
  | .list xs, .list ys => pyEqList xs ys
  | .dict xs, .dict ys => pyEqFields xs ys
  | _, _ => false
where
  pyEqList : List PyVal → List PyVal → Bool
    | [], [] => true
    | x :: xs, y :: ys => pyEq x y && pyEqList xs ys
    | _, _ => false
  pyEqFields : List (String × PyVal) → List (String × PyVal) → Bool
    | [], [] => true
    | (k1, v1) :: xs, (k2, v2) :: ys => k1 == k2 && pyEq v1 v2 && pyEqFields xs ys
    | _, _ => false

/-- Value of a digit string, most significant first. -/
def digitsToNat (ds : List Char) : Nat :=
  ds.foldl (fun n c => 10 * n + (c.toNat - '0'.toNat)) 0

/-- Parse an unsigned decimal literal (`"12"`, `"12.5"`, `".5"`, `"12."`).
Scientific notation and `inf`/`nan` are not modelled. -/
def parseUnsignedDecimal (s : List Char) : Option ℚ :=
  let intPart := s.takeWhile Char.isDigit
  let rest := s.dropWhile Char.isDigit
  match rest with
  | [] => if intPart.isEmpty then Option.none else some (digitsToNat intPart : ℚ)
  | '.' :: frac =>
      if frac.all Char.isDigit && !(intPart.isEmpty && frac.isEmpty) then
        some ((digitsToNat intPart : ℚ) + (digitsToNat frac : ℚ) / (10 ^ frac.length : ℚ))
      else Option.none
  | _ => Option.none

/-- Parse a signed decimal literal, as both `float(s)` and `Decimal(s)` accept
(leading/trailing whitespace tolerance is not modelled). -/
def parseDecimalString (s : String) : Option ℚ :=
  match s.toList with
  | '-' :: rest => (parseUnsignedDecimal rest).map (fun q => -q)
  | '+' :: rest => parseUnsignedDecimal rest
  | cs => parseUnsignedDecimal cs

/-- `Decimal(str(x))` as used by `CompareTool._rounded_equality`: numbers keep
their exact decimal value, numeric strings are parsed, everything else makes
`Decimal` raise (modelled as `Option.none`, folded into the failure branch). -/
def toDecimal : PyVal → Option ℚ
  | .num q => some q
  | .str s => parseDecimalString s
  | _ => Option.none

/-- A value usable directly as a number by Python's `>`/`<` (`bool` is an
`int` in Python).  Python's ordering of same-type sequences is not modelled;
it is treated as the non-numeric failure branch. -/
def asNumber : PyVal → Option ℚ
  | .num q => some q
  | .boolean b => some (if b then (1 : ℚ) else 0)
  | _ => Option.none

/-- `ToolResult` from `langchain_config/generic_tools.py`.  The `details` echo
of operation/parameters and the wall-clock `timestamp` are not modelled. -/
structure ToolResult where
  test_id : String
  passed : Bool
  message : String
  actual_value : Option PyVal
  expected_value : Option PyVal
deriving Repr

/-- The `parameters` dict with the keys the generic tools read, at their
Python `.get` defaults. -/
structure ToolParams where
  case_sensitive : Bool := true
  precision : Nat := 2
  field : String := "data"
  search_value : Option PyVal := Option.none
  min_offset_days : Int := 0
  max_offset_days : Int := 30
  reference_date : Option PyVal := Option.none
deriving Repr

/-- `CompareTool._equals` (operand rendering into the message is abbreviated
to the stable part of the text). -/
def compareEquals (a b : PyVal) (p : ToolParams) : Bool × String :=
  let passed :=
    match p.case_sensitive, a, b with
    | false, .str sa, .str sb => pyEq (.str sa.toLower) (.str sb.toLower)
    | _, _, _ => pyEq a b
  (passed, if passed then "Values are equal" else "Values are not equal")

/-- `CompareTool._not_equals`. -/
def compareNotEquals (a b : PyVal) (_p : ToolParams) : Bool × String :=
  let passed := !pyEq a b
  (passed, if passed then "Values are not equal" else "Values are equal")

/-- `CompareTool._greater_than`: strings are coerced with `float(...)`; a
coercion failure or non-numeric comparison is caught and downgraded. -/
def compareGreaterThan (a b : PyVal) (_p : ToolParams) : Bool × String :=
  let na : Option ℚ := match a with | .str sa => parseDecimalString sa | _ => asNumber a
  let nb : Option ℚ := match b with | .str sb => parseDecimalString sb | _ => asNumber b
  match na, nb with
  | some x, some y => (decide (y < x), if y < x then "is greater than" else "is not greater than")
  | _, _ => (false, "Cannot compare non-numeric values")

/-- `CompareTool._less_than`. -/
def compareLessThan (a b : PyVal) (_p : ToolParams) : Bool × String :=
  let na : Option ℚ := match a with | .str sa => parseDecimalString sa | _ => asNumber a
  let nb : Option ℚ := match b with | .str sb => parseDecimalString sb | _ => asNumber b
  match na, nb with
  | some x, some y => (decide (x < y), if x < y then "is less than" else "is not less than")
  | _, _ => (false, "Cannot compare non-numeric values")

/-- `Decimal.quantize(Decimal('0.01'), rounding=ROUND_HALF_UP)` scaled by 100:
round to the nearest integer, ties away from zero. -/
def roundHalfUpInt (x : ℚ) : Int :=
  if x < 0 then -(Int.floor (-x + 1 / 2)) else Int.floor (x + 1 / 2)

/-- `CompareTool._rounded_equality`: both operands become `Decimal`s and are
quantized with the hard-coded step `Decimal('0.01')` (two decimal places —
the `precision` parameter is read but only echoed in the message). -/
def compareRoundedEquality (a b : PyVal) (p : ToolParams) : Bool × String :=
  match toDecimal a, toDecimal b with
  | some da, some db =>
      let ra := roundHalfUpInt (da * 100)
      let rb := roundHalfUpInt (db * 100)
      (decide (ra = rb),
        (if ra = rb then "Values are equal at " else "Values are not equal at ")
          ++ toString p.precision ++ " decimal places")
  | _, _ => (false, "Cannot perform rounded comparison")

/-- The rounding the spec describes for `rounded_equality`: exact decimal
value, rounded half-up to `places` decimal digits.  Stated here to compare
against what the code does. -/
def specRoundHalfUp (places : Nat) (x : ℚ) : ℚ :=
  (roundHalfUpInt (x * 10 ^ places) : ℚ) / 10 ^ places

/-- `CompareTool.execute`. -/
def compareExecute (tid : String) (a b : PyVal) (op : OperationType)
    (p : ToolParams) : ToolResult :=
  match op with
  | .equals =>
      let r := compareEquals a b p
      { test_id := tid, passed := r.1, message := r.2,
        actual_value := some a, expected_value := some b }
  | .not_equals =>
      let r := compareNotEquals a b p
      { test_id := tid, passed := r.1, message := r.2,
        actual_value := some a, expected_value := some b }
  | .greater_than =>
      let r := compareGreaterThan a b p
      { test_id := tid, passed := r.1, message := r.2,
        actual_value := some a, expected_value := some b }
  | .less_than =>
      let r := compareLessThan a b p
      { test_id := tid, passed := r.1, message := r.2,
        actual_value := some a, expected_value := some b }
  | .rounded_equality =>
      let r := compareRoundedEquality a b p
      { test_id := tid, passed := r.1, message := r.2,
        actual_value := some a, expected_value := some b }
  | op =>
      { test_id := tid, passed := false,
        message := "Unsupported operation: " ++ opValue op,
        actual_value := Option.none, expected_value := Option.none }

/-- Day number of a proleptic-Gregorian calendar date (days since the Unix
epoch), so that `timedelta(days=k)` is `+ k`. -/
def daysFromCivil (y m d : Int) : Int :=
  let y2 := if m ≤ 2 then y - 1 else y
  let era := (if 0 ≤ y2 then y2 else y2 - 399) / 400
  let yoe := y2 - era * 400
  let mp := (m + 9) % 12
  let doy := (153 * mp + 2) / 5 + d - 1
  let doe := yoe * 365 + yoe / 4 - yoe / 100 + doy
  era * 146097 + doe - 719468

/-- `datetime.fromisoformat` restricted to the `YYYY-MM-DD` day form (the
time-of-day forms are not modelled). -/
def parseISODate (s : String) : Option Int :=
  match s.toList with
  | [y1, y2, y3, y4, '-', m1, m2, '-', d1, d2] =>
      if [y1, y2, y3, y4, m1, m2, d1, d2].all Char.isDigit then
        let y := (digitsToNat [y1, y2, y3, y4] : Int)
        let m := (digitsToNat [m1, m2] : Int)
        let d := (digitsToNat [d1, d2] : Int)
        if 1 ≤ m && m ≤ 12 && 1 ≤ d && d ≤ 31 then some (daysFromCivil y m d)
        else Option.none
      else Option.none
  | _ => Option.none

/-- Date coercion shared by the `DateRangeTool` helpers: a string is parsed
(parse failure raises, modelled as `Except.error`), a datetime is used as is,
anything else takes the `"Cannot parse date"` branch of the helper. -/
def toDateObj (v : PyVal) : Except String (Option Int) :=
  match v with
  | .str s =>
      match parseISODate s with
      | some d => Except.ok (some d)
      | Option.none => Except.error "Invalid isoformat string"
  | .pydate d => Except.ok (some d)
  | _ => Except.ok Option.none

/-- `DateRangeTool._in_range`.  `datetime.now()` is the explicit `now`
argument. -/
def dateInRange (v : PyVal) (p : ToolParams) (now : Int) :
    Except String (Bool × String) := do
  match ← toDateObj v with
  | Option.none => return (false, "Cannot parse date")
  | some d =>
      let ref ←
        match p.reference_date with
        | some (.str s) =>
            match parseISODate s with
            | some r => Except.ok r
            | Option.none => Except.error "Invalid isoformat string"
        | some (.pydate r) => Except.ok r
        | some _ => Except.error "unsupported reference date operand"
        | Option.none => Except.ok now
      let lo := ref + p.min_offset_days
      let hi := ref + p.max_offset_days
      let passed := lo ≤ d && d ≤ hi
      return (passed, if passed then "Date is within range" else "Date is outside range")

/-- `DateRangeTool._greater_than`. -/
def dateGreaterThan (v : PyVal) (p : ToolParams) : Except String (Bool × String) := do
  match p.reference_date with
  | Option.none => return (false, "Reference date required for greater_than operation")
  | some refv =>
      match ← toDateObj v with
      | Option.none => return (false, "Cannot parse date")
      | some d =>
          let ref ←
            match refv with
            | .str s =>
                match parseISODate s with
                | some r => Except.ok r
                | Option.none => Except.error "Invalid isoformat string"
            | .pydate r => Except.ok r
            | _ => Except.error "unsupported reference date operand"
          let passed := ref < d
          return (passed, if passed then "Date is greater than reference"
            else "Date is not greater than reference")

/-- `DateRangeTool._less_than`. -/
def dateLessThan (v : PyVal) (p : ToolParams) : Except String (Bool × String) := do
  match p.reference_date with
  | Option.none => return (false, "Reference date required for less_than operation")
  | some refv =>
      match ← toDateObj v with
      | Option.none => return (false, "Cannot parse date")
      | some d =>
          let ref ←
            match refv with
            | .str s =>
                match parseISODate s with
                | some r => Except.ok r
                | Option.none => Except.error "Invalid isoformat string"
            | .pydate r => Except.ok r
            | _ => Except.error "unsupported reference date operand"
          let passed := d < ref
          return (passed, if passed then "Date is less than reference"
            else "Date is not less than reference")

/-- `DateRangeTool.execute`: the supported operations run a helper whose
raised exceptions are caught and folded into a failed result; any other
operation is the deterministic unsupported-operation failure. -/
def dateRangeExecute (tid : String) (v : PyVal) (op : OperationType)
    (p : ToolParams) (now : Int) : ToolResult :=
  let runHelper : Except String (Bool × String) → ToolResult := fun r =>
    match r with
    | .ok (passed, msg) =>
        { test_id := tid, passed := passed, message := msg,
          actual_value := some v, expected_value := Option.none }
    | .error e =>
        { test_id := tid, passed := false, message := "Date validation failed: " ++ e,
          actual_value := Option.none, expected_value := Option.none }
  match op with
  | .in_range => runHelper (dateInRange v p now)
  | .greater_than => runHelper (dateGreaterThan v p)
  | .less_than => runHelper (dateLessThan v p)
  | op =>
      { test_id := tid, passed := false,
        message := "Unsupported date operation: " ++ opValue op,
        actual_value := Option.none, expected_value := Option.none }

/-- Python `str.strip()`: drop whitespace from both ends. -/
def pyStrip (cs : List Char) : List Char :=
  ((cs.dropWhile Char.isWhitespace).reverse.dropWhile Char.isWhitespace).reverse

/-- `ValidationTool._exists`. -/
def validationExists (v : PyVal) (p : ToolParams) : Bool × String :=
  match v with
  | .none => (false, p.field ++ " does not exist (None)")
  | .str s =>
      if (pyStrip s.toList).isEmpty then (false, p.field ++ " exists but is empty")
      else (true, p.field ++ " exists and has value")
  | .list xs =>
      if xs.length = 0 then (false, p.field ++ " exists but is empty")
      else (true, p.field ++ " exists and has value")
  | .dict fs =>
      if fs.length = 0 then (false, p.field ++ " exists but is empty")
      else (true, p.field ++ " exists and has value")
  | _ => (true, p.field ++ " exists and has value")

/-- `ValidationTool._not_exists`. -/
def validationNotExists (v : PyVal) (p : ToolParams) : Bool × String :=
  match v with
  | .none => (true, p.field ++ " does not exist (None)")
  | .str s =>
      if (pyStrip s.toList).isEmpty then (true, p.field ++ " exists but is empty")
      else (false, p.field ++ " exists and has value")
  | .list xs =>
      if xs.length = 0 then (true, p.field ++ " exists but is empty")
      else (false, p.field ++ " exists and has value")
  | .dict fs =>
      if fs.length = 0 then (true, p.field ++ " exists but is empty")
      else (false, p.field ++ " exists and has value")
  | _ => (false, p.field ++ " exists and has value")

/-- Python `str(x)` as needed by `ValidationTool._contains` (the decimal
rendering of non-integer numbers is abstracted to numerator/denominator
form; no claim depends on it). -/
def pyStr : PyVal → String
  | .none => "None"
  | .boolean b => if b then "True" else "False"
  | .num q => if q.den = 1 then toString q.num else toString q.num ++ "/" ++ toString q.den
  | .str s => s
  | .pydate d => "datetime(" ++ toString d ++ ")"
  | .list _ => "[...]"
  | .dict _ => "{...}"

/-- Substring test over character lists (Python `needle in haystack`). -/
def hasInfix (hay needle : List Char) : Bool :=
  match hay with
  | [] => needle.isEmpty
  | c :: rest => needle.isPrefixOf (c :: rest) || hasInfix rest needle

/-- `ValidationTool._contains`. -/
def validationContains (v : PyVal) (p : ToolParams) : Bool × String :=
  match p.search_value with
  | Option.none => (false, "search_value parameter required for contains operation")
  | some sv =>
      let passed :=
        match v with
        | .str s =>
            if p.case_sensitive then hasInfix s.toList (pyStr sv).toList
            else hasInfix s.toLower.toList (pyStr sv).toLower.toList
        | .list xs => xs.any (fun x => pyEq x sv)
        | .dict fs => fs.any (fun kv => pyEq (.str kv.1) sv)
        | other => hasInfix (pyStr other).toList (pyStr sv).toList
      (passed, if passed then "contains search value" else "does not contain search value")

/-- `ValidationTool.execute`. -/
def validationExecute (tid : String) (v : PyVal) (op : OperationType)
    (p : ToolParams) : ToolResult :=
  match op with
  | .existsOp =>
      let r := validationExists v p
      { test_id := tid, passed := r.1, message := r.2,
        actual_value := some v, expected_value := Option.none }
  | .notExistsOp =>
      let r := validationNotExists v p
      { test_id := tid, passed := r.1, message := r.2,
        actual_value := some v, expected_value := Option.none }
  | .contains =>
      let r := validationContains v p
      { test_id := tid, passed := r.1, message := r.2,
        actual_value := some v, expected_value := Option.none }
  | op =>
      { test_id := tid, passed := false,
        message := "Unsupported validation operation: " ++ opValue op,
        actual_value := Option.none, expected_value := Option.none }

/-- `GenericToolFactory.execute_tool`.  `additional` is the optional second
operand, defaulting to Python `None` (`PyVal.none`); `now` threads the wall
clock consumed only by the date tool.  All five members of the closed
`TestType` enum are dispatched, so the Python `else` branch returning
`"Unsupported tool type"` is unreachable. -/
def executeTool (toolType : TestType) (tid : String) (data : PyVal)
    (op : OperationType) (p : ToolParams) (additional : PyVal := .none)
    (now : Int := 0) : ToolResult :=
  match toolType with
  | .compare =>
      if additional.isNone then
        { test_id := tid, passed := false,
          message := "Compare tool requires two data values",
          actual_value := Option.none, expected_value := Option.none }
      else compareExecute tid data additional op p
  | .date_range_check => dateRangeExecute tid data op p now
  | .validate_presence => validationExecute tid data op p
  | .equality_check =>
      if additional.isNone then
        { test_id := tid, passed := false,
          message := "Equality check requires two data values",
          actual_value := Option.none, expected_value := Option.none }
      else compareExecute tid data additional .equals p
  | .rounded_equality =>
      if additional.isNone then
        { test_id := tid, passed := false,
          message := "Rounded equality check requires two data values",
          actual_value := Option.none, expected_value := Option.none }
      else compareExecute tid data additional .rounded_equality p

/-- Outcome of `equals`/`rounded_equality` in `agents/compare.py` (the
`left`/`right` echo fields are omitted). -/
structure CmpOutcome where
  passed : Bool
  reason : String
deriving Repr, DecidableEq

/-- `equals` from `agents/compare.py`: with `normalize`, both sides get
`.replace("-", "").replace(" ", "").upper()` before comparison. -/
def equalsAgents (left right : String) (normalize : Bool) : CmpOutcome :=
  let l :=
    if normalize then
      String.mk (((left.toList.filter (fun c => c != '-')).filter (fun c => c != ' ')).map Char.toUpper)
    else left
  let r :=
    if normalize then
      String.mk (((right.toList.filter (fun c => c != '-')).filter (fun c => c != ' ')).map Char.toUpper)
    else right
  let ok := l = r
  { passed := ok, reason := if ok then l ++ " == " ++ r else l ++ " != " ++ r }

/-- The normalization the spec describes for `equals`: strip every character
outside letters and digits, case-fold, trim.  Stated here to compare against
what `equalsAgents` actually does. -/
def claimNormalize (s : String) : String :=
  String.mk ((s.toList.filter (fun c => c.isAlphanum)).map Char.toLower)

/-- A stored per-test result dict, as consumed by `_execute_with_retry` and the
session store (`attempts`/`error` keys are optional in Python, hence `Option`). -/
structure ExecResult where
  passed : Bool
  message : String := ""
  attempts : Option Nat := Option.none
  error : Option String := Option.none
deriving Repr, DecidableEq

/-- Outcome of one `execute_test` tool invocation inside the retry loop:
either a successful parse with the test's result payload, or a failure
carrying the error text. -/
inductive AttemptOutcome where
  | success (r : ExecResult)
  | failure (err : String)
deriving Repr, DecidableEq

/-- The error record `_execute_with_retry` builds after all attempts failed. -/
def retryFailureRecord (retryCount : Nat) (lastError : String) : ExecResult :=
  { passed := false
    message := "Test failed after " ++ toString (retryCount + 1) ++ " attempts: " ++ lastError
    attempts := some (retryCount + 1)
    error := some lastError }

/-- The `for attempt in range(retry_count + 1)` loop of
`TestExecutionAgent._execute_with_retry`.  The state is
(attempts remaining, current attempt index, last error, `time.sleep` count);
the result triple is (returned record, attempts performed, sleeps performed).
A successful attempt returns its payload unchanged; `time.sleep(1)` runs after
a failed attempt whenever `attempt < retry_count`. -/
def retryGo (attemptTool : Nat → AttemptOutcome) (retryCount : Nat) :
    Nat → Nat → String → Nat → ExecResult × Nat × Nat
  | 0, attempt, lastError, sleeps => (retryFailureRecord retryCount lastError, attempt, sleeps)
  | remaining + 1, attempt, _lastError, sleeps =>
      match attemptTool attempt with
      | .success r => (r, attempt + 1, sleeps)
      | .failure e =>
          retryGo attemptTool retryCount remaining (attempt + 1) e
            (if attempt < retryCount then sleeps + 1 else sleeps)

/-- `TestExecutionAgent._execute_with_retry`, instrumented with the attempt
and sleep counts. -/
def executeWithRetry (attemptTool : Nat → AttemptOutcome) (retryCount : Nat) :
    ExecResult × Nat × Nat :=
  retryGo attemptTool retryCount (retryCount + 1) 0 "" 0

/-- A per-test record as aggregated by `run_langchain_workflow`
(`result.get('passed', False)` / `result.get('skipped', False)`). -/
structure TestRunRecord where
  passed : Bool
  skipped : Bool
deriving Repr, DecidableEq

/-- The two shapes `EnhancedTestExecutionAgent.execute_enhanced_test` returns
around the conditional gate: gate false yields the skip record
`{passed: True, skipped: True}`; otherwise the executed result is returned
with no `skipped` key (read back as `False`). -/
def executeEnhancedTest (gateAllows : Bool) (execPassed : Bool) : TestRunRecord :=
  if gateAllows = false then { passed := true, skipped := true }
  else { passed := execPassed, skipped := false }

/-- The aggregation block of `run_langchain_workflow` (`langchain_web_demo.py`). -/
structure AggregateSummary where
  passed : Nat
  skipped : Nat
  failed : Nat
  total : Nat
  executed : Nat
  execution_success_rate : ℚ
  overall_success_rate : ℚ
deriving Repr, DecidableEq

/-- Result aggregation from `run_langchain_workflow`: counts separate actual
execution from conditional skipping, and the two success rates are computed
exactly as in the source (both as percentages). -/
def aggregateResults (results : List TestRunRecord) : AggregateSummary :=
  let passedN := results.countP (fun r => r.passed && !r.skipped)
  let skippedN := results.countP (fun r => r.skipped)
  let failedN := results.countP (fun r => !r.passed && !r.skipped)
  let totalN := results.length
  let executedN := passedN + failedN
  { passed := passedN
    skipped := skippedN
    failed := failedN
    total := totalN
    executed := executedN
    execution_success_rate :=
      if 0 < executedN then (passedN : ℚ) / (executedN : ℚ) * 100 else 100
    overall_success_rate :=
      if 0 < totalN then ((passedN : ℚ) + (skippedN : ℚ)) / (totalN : ℚ) * 100 else 0 }

/-- A stored test result as read back by `TestDependencyTool._run`
(`dep_result.get("passed", False)` and the message shown in output). -/
structure StoredResult where
  passed : Bool
  message : String
deriving Repr, DecidableEq

/-- The dependency loop of `TestDependencyTool._run`: `all_dependencies_met`
starts true, a missing dependency result or one with `passed` false clears it. -/
def checkDependenciesMet (deps : List String)
    (results : String → Option StoredResult) : Bool :=
  deps.foldl
    (fun met dep =>
      match results dep with
      | some r => if r.passed = false then false else met
      | Option.none => false)
    true

/-- Modelled from the spec: the FAILED record with reason
"blocked by failed dependency" that section 4.6 prescribes for a dependent of
a failed test.  The pipeline driver under `src/` runs the sequence
unconditionally and never consults `TestDependencyTool`, so this recording
step exists only in the spec. -/
def blockedResult : StoredResult :=
  { passed := false, message := "blocked by failed dependency" }

/-- Modelled from the spec: the execution-time dependency gating of section
4.6 — walk the (topologically sorted) tests in order; a test whose
dependencies are all recorded PASSED executes, any other test is recorded as
`blockedResult` without executing.  Readiness is decided by the source-code
check `checkDependenciesMet`. -/
def runWithDependencyGating (tests : List (String × List String))
    (execute : String → StoredResult) : String → Option StoredResult :=
  tests.foldl
    (fun results t =>
      let r := if checkDependenciesMet t.2 results then execute t.1 else blockedResult
      fun tid => if tid = t.1 then some r else results tid)
    (fun _ => Option.none)

/-- View of a stored result in the aggregation of 4.6: an executed-or-blocked
record is never `skipped`. -/
def toRunRecord (r : StoredResult) : TestRunRecord :=
  { passed := r.passed, skipped := false }

/-! ## Theorems -/

theorem pyStrip_eq_nil_of_all_whitespace {cs : List Char}
    (h : cs.all Char.isWhitespace = true) : pyStrip cs = [] := by
  have hd : cs.dropWhile Char.isWhitespace = [] := by
    rw [List.dropWhile_eq_nil_iff]
    intro x hx
    exact List.all_eq_true.mp h x hx
  simp [pyStrip, hd]

/-- C10: `_not_exists` answers the exact boolean complement of `_exists` on
every input, and `None`, whitespace-only strings, and empty lists or dicts all
count as not existing. -/
theorem validation_presence_complement :
    (∀ (v : PyVal) (p : ToolParams),
      (validationNotExists v p).1 = !(validationExists v p).1) ∧
    (∀ p : ToolParams, (validationExists .none p).1 = false) ∧
    (∀ (p : ToolParams) (s : String), s.toList.all Char.isWhitespace = true →
      (validationExists (.str s) p).1 = false) ∧
    (∀ p : ToolParams, (validationExists (.list []) p).1 = false) ∧
    (∀ p : ToolParams, (validationExists (.dict []) p).1 = false) := by
  refine ⟨fun v p => ?_, fun p => rfl, fun p s h => ?_, fun p => rfl, fun p => rfl⟩
  · cases v <;> simp only [validationExists, validationNotExists] <;>
      (try split) <;> simp
  · have hs : pyStrip s.data = [] := pyStrip_eq_nil_of_all_whitespace h
    simp [validationExists, hs]

theorem validation_presence_complement_witness :
    ("   ".toList.all Char.isWhitespace = true) ∧
    (validationExists (.str "   ") { }).1 = false :=
  ⟨by decide, validation_presence_complement.2.2.1 { } "   " (by decide)⟩

/-- C7 counterexample: the claim says `equals` with `normalize=true` strips
every character outside letters and digits; under that normalization
`"A.1"` and `"A1"` coincide, yet the code returns `passed=false` because it
only removes hyphens and spaces. -/
theorem equals_normalize_counterexample :
    claimNormalize "A.1" = claimNormalize "A1" ∧
    (equalsAgents "A.1" "A1" true).passed = false := by
  exact ⟨by decide, by decide⟩

/-- C7 (amended): `equals` with `normalize=true` compares the operands after
removing hyphen and space characters and uppercasing; with `normalize=false`
it compares the raw strings; the `"ACC12345"`/`"ACC-12345"` examples behave as
claimed. -/
theorem equals_normalize_behavior :
    (∀ l r : String, (equalsAgents l r true).passed = true ↔
      ((l.toList.filter (fun c => c != '-')).filter (fun c => c != ' ')).map Char.toUpper =
        ((r.toList.filter (fun c => c != '-')).filter (fun c => c != ' ')).map Char.toUpper) ∧
    (∀ l r : String, (equalsAgents l r false).passed = true ↔ l = r) ∧
    (equalsAgents "ACC12345" "ACC-12345" true).passed = true ∧
    (equalsAgents "ACC12345" "ACC-12345" false).passed = false := by
  refine ⟨fun l r => ?_, fun l r => ?_, by decide, by decide⟩
  · simp [equalsAgents, String.ext_iff]
  · simp [equalsAgents]

/-- C5 counterexample: the claim predicts `rounded_equality(0.654, 0.65,
places=2)` fails, but the code rounds both to `0.65` and passes; and with
`places=3` the code still rounds at two decimal places (the parameter is
ignored), so `0.651` vs `0.65` also passes. -/
theorem rounded_equality_counterexample :
    (executeTool .rounded_equality "rate_match" (.num (654 / 1000))
        .rounded_equality { } (.num (65 / 100))).passed = true ∧
    (executeTool .rounded_equality "rate_match" (.num (651 / 1000))
        .rounded_equality { precision := 3 } (.num (65 / 100))).passed = true := by
  constructor <;>
    (simp [executeTool, PyVal.isNone, compareExecute, compareRoundedEquality,
      toDecimal, roundHalfUpInt]; norm_num)

theorem intCast_div_hundred_inj (x y : Int) :
    (x : ℚ) / 100 = (y : ℚ) / 100 ↔ x = y := by
  constructor
  · intro h
    field_simp at h
    exact_mod_cast h
  · intro h
    rw [h]

/-- C5 (amended): `rounded_equality` converts both operands to exact decimals
and compares them rounded half-up at two decimal places regardless of the
requested precision; both spec examples therefore pass. -/
theorem rounded_equality_two_places :
    (∀ (tid : String) (a b : ℚ) (op : OperationType) (p : ToolParams),
      (executeTool .rounded_equality tid (.num a) op p (.num b)).passed =
        decide (specRoundHalfUp 2 a = specRoundHalfUp 2 b)) ∧
    (∀ (a b : PyVal) (p q : ToolParams),
      (compareRoundedEquality a b p).1 = (compareRoundedEquality a b q).1) ∧
    ((executeTool .rounded_equality "t" (.num (651 / 1000))
        .rounded_equality { } (.num (65 / 100))).passed = true) ∧
    ((executeTool .rounded_equality "t" (.num (654 / 1000))
        .rounded_equality { } (.num (65 / 100))).passed = true) := by
  refine ⟨fun tid a b op p => ?_, fun a b p q => ?_, ?_, ?_⟩
  · have h2 : ((10 : ℚ) ^ (2 : Nat)) = 100 := by norm_num
    simp [executeTool, PyVal.isNone, compareExecute, compareRoundedEquality,
      toDecimal, specRoundHalfUp, h2, decide_eq_decide]
    exact (intCast_div_hundred_inj _ _).symm
  · rcases h1 : toDecimal a with _ | da <;> rcases h2 : toDecimal b with _ | db <;>
      simp [compareRoundedEquality, h1, h2]
  · simp [executeTool, PyVal.isNone, compareExecute, compareRoundedEquality,
      toDecimal, roundHalfUpInt]
    norm_num
  · simp [executeTool, PyVal.isNone, compareExecute, compareRoundedEquality,
      toDecimal, roundHalfUpInt]
    norm_num

/-- C9 counterexample: a test with `retry_count=2` that fails twice and passes
on the third attempt ends PASSED after exactly three attempts and two fixed
delays, but the returned record carries no `attempts` entry (the claim says
`attempts=3` is recorded); the attempt count is only written by the
all-attempts-failed branch. -/
theorem retry_attempts_counterexample :
    executeWithRetry
        (fun n => if n < 2 then .failure "boom" else .success { passed := true }) 2 =
      ({ passed := true }, 3, 2) ∧
    (executeWithRetry
        (fun n => if n < 2 then .failure "boom" else .success { passed := true }) 2).1.attempts
      = Option.none := by
  exact ⟨rfl, rfl⟩

/-- C9 (amended): with `retry_count=2` and failures on the first two attempts,
a third-attempt success is returned unchanged after exactly three tool
invocations separated by two fixed delays; the final status is PASSED, and the
attempt count is recorded in the result only when every attempt fails. -/
theorem retry_third_attempt_passes (attemptTool : Nat → AttemptOutcome)
    (e0 e1 : String) (r : ExecResult)
    (h0 : attemptTool 0 = .failure e0) (h1 : attemptTool 1 = .failure e1)
    (h2 : attemptTool 2 = .success r) (hp : r.passed = true) :
    executeWithRetry attemptTool 2 = (r, 3, 2) ∧ r.passed = true ∧
    (executeWithRetry attemptTool 2).1.attempts = r.attempts := by
  refine ⟨?_, hp, ?_⟩ <;> simp [executeWithRetry, retryGo, h0, h1, h2]

theorem retry_third_attempt_passes_witness :
    ((fun n => if n < 2 then AttemptOutcome.failure "boom"
        else AttemptOutcome.success { passed := true }) 0 = .failure "boom") ∧
    ((fun n => if n < 2 then AttemptOutcome.failure "boom"
        else AttemptOutcome.success { passed := true }) 2 = .success { passed := true }) ∧
    executeWithRetry
        (fun n => if n < 2 then AttemptOutcome.failure "boom"
          else AttemptOutcome.success { passed := true }) 2
      = ({ passed := true }, 3, 2) :=
  ⟨rfl, rfl,
    (retry_third_attempt_passes
      (fun n => if n < 2 then AttemptOutcome.failure "boom"
        else AttemptOutcome.success { passed := true })
      "boom" "boom" { passed := true } rfl rfl rfl rfl).1⟩

theorem runRecords_partition (rs : List TestRunRecord) :
    rs.length = rs.countP (fun r => r.passed && !r.skipped) + rs.countP (fun r => r.skipped)
      + rs.countP (fun r => !r.passed && !r.skipped) := by
  induction rs with
  | nil => rfl
  | cons r t ih =>
      cases hp : r.passed <;> cases hs : r.skipped <;>
        simp [List.countP_cons, hp, hs] <;> omega

/-- C3: a test whose conditional gate evaluates false is recorded as skipped
(not failed): it never enters the failed count but counts toward the total;
the execution success rate is passed over passed-plus-failed among executed
tests, and the overall success rate credits skipped tests as non-blocking. -/
theorem skip_aggregation :
    (∀ b : Bool, (executeEnhancedTest false b).skipped = true) ∧
    (∀ (rs : List TestRunRecord) (r : TestRunRecord), r.skipped = true →
      (aggregateResults (r :: rs)).failed = (aggregateResults rs).failed ∧
      (aggregateResults (r :: rs)).total = (aggregateResults rs).total + 1 ∧
      (aggregateResults (r :: rs)).skipped = (aggregateResults rs).skipped + 1) ∧
    (∀ rs : List TestRunRecord,
      (aggregateResults rs).total = (aggregateResults rs).passed +
        (aggregateResults rs).skipped + (aggregateResults rs).failed) ∧
    (∀ rs : List TestRunRecord, 0 < (aggregateResults rs).executed →
      (aggregateResults rs).execution_success_rate =
        ((aggregateResults rs).passed : ℚ) /
          (((aggregateResults rs).passed : ℚ) + ((aggregateResults rs).failed : ℚ)) * 100) ∧
    (∀ rs : List TestRunRecord, 0 < (aggregateResults rs).total →
      (aggregateResults rs).overall_success_rate =
        (((aggregateResults rs).passed : ℚ) + ((aggregateResults rs).skipped : ℚ)) /
          ((aggregateResults rs).total : ℚ) * 100) := by
  refine ⟨fun b => rfl, fun rs r h => ?_, fun rs => runRecords_partition rs,
    fun rs h => ?_, fun rs h => ?_⟩
  · refine ⟨?_, ?_, ?_⟩ <;> simp [aggregateResults, List.countP_cons, h]
  · simp only [aggregateResults] at h ⊢
    rw [if_pos h]
    push_cast
    ring
  · simp only [aggregateResults] at h ⊢
    rw [if_pos h]

theorem skip_aggregation_witness :
    (TestRunRecord.mk true true).skipped = true ∧
    0 < (aggregateResults [⟨true, false⟩, ⟨true, true⟩, ⟨false, false⟩]).executed ∧
    (aggregateResults [⟨true, false⟩, ⟨true, true⟩, ⟨false, false⟩]).failed =
      (aggregateResults [⟨true, false⟩, ⟨false, false⟩]).failed ∧
    (aggregateResults [⟨true, false⟩, ⟨true, true⟩, ⟨false, false⟩]).execution_success_rate =
      ((aggregateResults [⟨true, false⟩, ⟨true, true⟩, ⟨false, false⟩]).passed : ℚ) /
        (((aggregateResults [⟨true, false⟩, ⟨true, true⟩, ⟨false, false⟩]).passed : ℚ) +
          ((aggregateResults [⟨true, false⟩, ⟨true, true⟩, ⟨false, false⟩]).failed : ℚ)) * 100 :=
  ⟨rfl, by decide,
    (skip_aggregation.2.1 [⟨false, false⟩] ⟨true, true⟩ rfl).1,
    skip_aggregation.2.2.2.1 [⟨true, false⟩, ⟨true, true⟩, ⟨false, false⟩] (by decide)⟩

/-- C6: the dispatcher never lets an error escape as anything but a failed
`ToolResult`: a two-value tool with no second operand fails with the
requires-two-values message, an unsupported (tool_type, operation) pairing
fails naming the unsupported combination, and internal conversion failures
(non-numeric operands, unparseable dates) are folded into failed results. -/
theorem dispatcher_error_handling :
    (∀ (tid : String) (d : PyVal) (op : OperationType) (p : ToolParams) (now : Int),
      (executeTool .compare tid d op p .none now).passed = false ∧
      (executeTool .compare tid d op p .none now).message
        = "Compare tool requires two data values" ∧
      (executeTool .equality_check tid d op p .none now).passed = false ∧
      (executeTool .equality_check tid d op p .none now).message
        = "Equality check requires two data values" ∧
      (executeTool .rounded_equality tid d op p .none now).passed = false ∧
      (executeTool .rounded_equality tid d op p .none now).message
        = "Rounded equality check requires two data values") ∧
    (∀ (tid : String) (d extra : PyVal) (p : ToolParams) (now : Int)
        (op : OperationType),
      op ∉ [OperationType.equals, OperationType.not_equals, OperationType.greater_than,
        OperationType.less_than, OperationType.rounded_equality] →
      extra.isNone = false →
      (executeTool .compare tid d op p extra now).passed = false ∧
      (executeTool .compare tid d op p extra now).message
        = "Unsupported operation: " ++ opValue op) ∧
    (∀ (tid : String) (d : PyVal) (p : ToolParams) (now : Int) (op : OperationType),
      op ∉ [OperationType.in_range, OperationType.greater_than, OperationType.less_than] →
      (executeTool .date_range_check tid d op p .none now).passed = false ∧
      (executeTool .date_range_check tid d op p .none now).message
        = "Unsupported date operation: " ++ opValue op) ∧
    (∀ (tid : String) (d : PyVal) (p : ToolParams) (now : Int) (op : OperationType),
      op ∉ [OperationType.existsOp, OperationType.notExistsOp, OperationType.contains] →
      (executeTool .validate_presence tid d op p .none now).passed = false ∧
      (executeTool .validate_presence tid d op p .none now).message
        = "Unsupported validation operation: " ++ opValue op) ∧
    (∀ (tid : String) (p : ToolParams) (now : Int) (sa : String),
      parseDecimalString sa = Option.none →
      (executeTool .compare tid (.str sa) .greater_than p (.num 1) now).passed = false ∧
      (executeTool .compare tid (.str sa) .greater_than p (.num 1) now).message
        = "Cannot compare non-numeric values") ∧
    (∀ (tid : String) (a : PyVal) (p : ToolParams) (now : Int) (xs : List PyVal),
      (executeTool .rounded_equality tid a .rounded_equality p (.list xs) now).passed = false ∧
      (executeTool .rounded_equality tid a .rounded_equality p (.list xs) now).message
        = "Cannot perform rounded comparison") ∧
    (∀ (tid : String) (p : ToolParams) (now : Int),
      (executeTool .date_range_check tid (.str "not-a-date") .in_range p .none now).passed = false ∧
      (executeTool .date_range_check tid (.str "not-a-date") .in_range p .none now).message
        = "Date validation failed: Invalid isoformat string") := by
  refine ⟨fun tid d op p now => ⟨rfl, rfl, rfl, rfl, rfl, rfl⟩,
    fun tid d extra p now op hop hext => ?_,
    fun tid d p now op hop => ?_,
    fun tid d p now op hop => ?_,
    fun tid p now sa h => ?_,
    fun tid a p now xs => ?_,
    fun tid p now => ⟨rfl, rfl⟩⟩
  · cases op <;> simp_all [executeTool, compareExecute, opValue]
  · cases op <;> simp_all [executeTool, dateRangeExecute, opValue]
  · cases op <;> simp_all [executeTool, validationExecute, opValue]
  · constructor <;>
      simp [executeTool, PyVal.isNone, compareExecute, compareGreaterThan, h]
  · have hx : toDecimal (PyVal.list xs) = Option.none := rfl
    rcases h : toDecimal a with _ | da <;>
      (constructor <;>
        simp [executeTool, PyVal.isNone, compareExecute, compareRoundedEquality, h, hx])

theorem dispatcher_error_handling_witness :
    (OperationType.contains ∉ [OperationType.equals, OperationType.not_equals,
      OperationType.greater_than, OperationType.less_than, OperationType.rounded_equality]) ∧
    ((PyVal.num 2).isNone = false) ∧
    (parseDecimalString "abc" = Option.none) ∧
    (executeTool .compare "t" (.num 1) .contains { } (.num 2) 0).message
      = "Unsupported operation: contains" ∧
    (executeTool .compare "t" (.str "abc") .greater_than { } (.num 1) 0).message
      = "Cannot compare non-numeric values" :=
  ⟨by decide, rfl, rfl,
    (dispatcher_error_handling.2.1 "t" (.num 1) (.num 2) { } 0 .contains (by decide) rfl).2,
    (dispatcher_error_handling.2.2.2.2.1 "t" { } 0 "abc" rfl).2⟩

theorem checkDependenciesMet_foldl (results : String → Option StoredResult)
    (deps : List String) :
    ∀ acc : Bool,
      deps.foldl
        (fun met dep =>
          match results dep with
          | some r => if r.passed = false then false else met
          | Option.none => false)
        acc
      = (acc && deps.all (fun d =>
          match results d with
          | some r => r.passed
          | Option.none => false)) := by
  induction deps with
  | nil => intro acc; simp
  | cons d t ih =>
      intro acc
      rcases hr : results d with _ | r
      · simp only [List.foldl_cons, hr, ih, List.all_cons, hr]
        simp
      · rcases hp : r.passed
        · simp only [List.foldl_cons, hr, hp, ih, List.all_cons, hr]
          simp [hp]
        · simp only [List.foldl_cons, hr, hp, ih, List.all_cons, hr]
          simp [hp]

/-- C4: the readiness check of `TestDependencyTool._run` answers true exactly
when every dependency has a recorded result with `passed=true`; in the
spec's scheduler (modelled from section 4.6, absent from `src/`), a test with
a failed dependency is recorded as the distinguishable blocked failure
without being executed, and the aggregated failed count includes it. -/
theorem dependency_readiness_gating :
    (∀ (deps : List String) (results : String → Option StoredResult),
      checkDependenciesMet deps results = true ↔
        ∀ d ∈ deps, ∃ r, results d = some r ∧ r.passed = true) ∧
    (∀ execute : String → StoredResult, (execute "A").passed = false →
      runWithDependencyGating [("A", []), ("B", ["A"])] execute "B" = some blockedResult) ∧
    blockedResult.passed = false ∧
    blockedResult.message = "blocked by failed dependency" ∧
    (∀ rs : List TestRunRecord,
      (aggregateResults (toRunRecord blockedResult :: rs)).failed
        = (aggregateResults rs).failed + 1 ∧
      (aggregateResults (toRunRecord blockedResult :: rs)).skipped
        = (aggregateResults rs).skipped) := by
  refine ⟨fun deps results => ?_, fun execute h => ?_, rfl, rfl, fun rs => ?_⟩
  · rw [checkDependenciesMet, checkDependenciesMet_foldl]
    simp only [Bool.true_and, List.all_eq_true]
    constructor
    · intro hall d hd
      have := hall d hd
      rcases hr : results d with _ | r
      · rw [hr] at this; exact absurd this (by simp)
      · rw [hr] at this; exact ⟨r, rfl, this⟩
    · intro hall d hd
      rcases hall d hd with ⟨r, hr, hp⟩
      rw [hr]
      exact hp
  · simp [runWithDependencyGating, checkDependenciesMet, h]
  · constructor <;> simp [aggregateResults, List.countP_cons, toRunRecord, blockedResult]

theorem dependency_readiness_gating_witness :
    (((fun _ => { passed := false, message := "executed and failed" } :
        String → StoredResult) "A").passed = false) ∧
    runWithDependencyGating [("A", []), ("B", ["A"])]
        (fun _ => { passed := false, message := "executed and failed" }) "B"
      = some blockedResult :=
  ⟨rfl, dependency_readiness_gating.2.1
    (fun _ => { passed := false, message := "executed and failed" }) rfl⟩

theorem groupPhasesGo_spec (nodes : List TestNode) (maxPar : Nat) :
    ∀ (order : List String) (current : List PhaseTest) (phases : List Phase),
      (∀ tid ∈ order, (nodes.find? (fun nd => nd.test_id = tid)).isSome = true) →
      (∀ t ∈ current, t.parallel = true) →
      (∀ ph ∈ phases, WellFormedPhase ph) →
      List.Chain' (fun a b => a.phase_type = "parallel" → b.phase_type ≠ "parallel") phases →
      (∀ ph, phases.getLast? = some ph → ph.phase_type = "sequential") →
      ∃ out, groupPhasesGo nodes maxPar order current phases = some out ∧
        (out.map Phase.tests).flatten
          = (phases.map Phase.tests).flatten ++ current ++ order.filterMap (entryOf nodes) ∧
        (∀ ph ∈ out, WellFormedPhase ph) ∧
        List.Chain' (fun a b => a.phase_type = "parallel" → b.phase_type ≠ "parallel") out := by
  intro order
  induction order with
  | nil =>
      intro current phases _ hcur hwf hchain hlast
      rcases hc : current.isEmpty with _ | _
      · have hcne : current ≠ [] := by
          intro h
          rw [h] at hc
          simp at hc
        refine ⟨phases ++ [mkParallelPhase current maxPar], by simp [groupPhasesGo, hc], ?_, ?_, ?_⟩
        · simp [mkParallelPhase]
        · intro ph hph
          rcases List.mem_append.mp hph with h | h
          · exact hwf ph h
          · rcases List.mem_singleton.mp h with rfl
            exact Or.inr ⟨rfl, hcne, hcur⟩
        · rw [List.chain'_append]
          refine ⟨hchain, List.chain'_singleton _, ?_⟩
          intro x hx y hy hpar
          have := hlast x hx
          rw [this] at hpar
          simp at hpar
      · have : current = [] := List.isEmpty_iff.mp hc
        subst this
        exact ⟨phases, by simp [groupPhasesGo, hc], by simp, hwf, hchain⟩
  | cons tid rest ih =>
      intro current phases hfound hcur hwf hchain hlast
      obtain ⟨nd, hnd⟩ := Option.isSome_iff_exists.mp (hfound tid (by simp))
      have hentry : entryOf nodes tid = some (phaseEntry nd nd.parallel_execution) := by
        simp [entryOf, hnd]
      have hfound' : ∀ t ∈ rest, (nodes.find? (fun n => n.test_id = t)).isSome = true :=
        fun t ht => hfound t (by simp [ht])
      rcases hp : nd.parallel_execution with _ | _
      · -- sequential node: flush the open parallel phase, emit a singleton phase
        have hwf' : ∀ ph ∈ (phases ++ (if current.isEmpty then [] else
            [mkParallelPhase current maxPar])) ++ [mkSequentialPhase nd], WellFormedPhase ph := by
          intro ph hph
          rcases List.mem_append.mp hph with h | h
          · rcases List.mem_append.mp h with h2 | h2
            · exact hwf ph h2
            · rcases hc : current.isEmpty with _ | _
              · rw [hc] at h2
                rcases List.mem_singleton.mp h2 with rfl
                refine Or.inr ⟨rfl, ?_, hcur⟩
                intro hnil
                simp only [mkParallelPhase] at hnil
                rw [hnil] at hc
                simp at hc
              · rw [hc] at h2
                simp at h2
          · rcases List.mem_singleton.mp h with rfl
            exact Or.inl ⟨rfl, phaseEntry nd false, rfl, rfl⟩
        have hchainP : List.Chain' (fun a b => a.phase_type = "parallel" → b.phase_type ≠ "parallel")
            (phases ++ (if current.isEmpty then [] else [mkParallelPhase current maxPar])) := by
          rcases hc : current.isEmpty with _ | _
          · rw [List.chain'_append]
            refine ⟨hchain, List.chain'_singleton _, ?_⟩
            intro x hx y hy hpar
            have := hlast x hx
            rw [this] at hpar
            simp at hpar
          · simpa using hchain
        have hchain' : List.Chain'
            (fun a b => a.phase_type = "parallel" → b.phase_type ≠ "parallel")
            ((phases ++ (if current.isEmpty then [] else [mkParallelPhase current maxPar]))
              ++ [mkSequentialPhase nd]) := by
          rw [List.chain'_append]
          refine ⟨hchainP, List.chain'_singleton _, ?_⟩
          intro x _ y hy hpar
          have hym : y = mkSequentialPhase nd := by
            simp only [List.head?_cons, Option.mem_def, Option.some.injEq] at hy
            exact hy.symm
          rw [hym]
          simp [mkSequentialPhase]
        have hlast' : ∀ ph,
            ((phases ++ (if current.isEmpty then [] else [mkParallelPhase current maxPar]))
              ++ [mkSequentialPhase nd]).getLast? = some ph → ph.phase_type = "sequential" := by
          intro ph hph
          rw [List.getLast?_concat] at hph
          injection hph with h
          rw [← h]
          rfl
        obtain ⟨out, hout, hjoin, hwfO, hchainO⟩ :=
          ih [] ((phases ++ (if current.isEmpty then [] else [mkParallelPhase current maxPar]))
            ++ [mkSequentialPhase nd]) hfound' (by simp) hwf' hchain' hlast'
        refine ⟨out, ?_, ?_, hwfO, hchainO⟩
        · simp only [groupPhasesGo, hnd, hp]
          simpa using hout
        · rw [hjoin]
          have hflush : ((if current.isEmpty then ([] : List Phase)
              else [mkParallelPhase current maxPar]).map Phase.tests).flatten = current := by
            rcases hc : current.isEmpty with _ | _
            · simp [mkParallelPhase]
            · have : current = [] := List.isEmpty_iff.mp hc
              rw [this]
              simp
          simp only [List.map_append, List.flatten_append]
          rw [hflush]
          simp only [List.filterMap_cons, hentry, hp]
          simp [mkSequentialPhase, List.append_assoc]
      · -- parallel node: extend the open parallel phase
        obtain ⟨out, hout, hjoin, hwfO, hchainO⟩ :=
          ih (current ++ [phaseEntry nd true]) phases hfound'
            (by
              intro t ht
              rcases List.mem_append.mp ht with h | h
              · exact hcur t h
              · rcases List.mem_singleton.mp h with rfl
                rfl)
            hwf hchain hlast
        refine ⟨out, ?_, ?_, hwfO, hchainO⟩
        · simp only [groupPhasesGo, hnd, hp]
          simpa using hout
        · rw [hjoin]
          simp only [List.filterMap_cons, hentry, hp]
          simp [List.append_assoc]

theorem filterMap_entryOf_ids (nodes : List TestNode) :
    ∀ order : List String,
      (∀ tid ∈ order, (nodes.find? (fun nd => nd.test_id = tid)).isSome = true) →
      (order.filterMap (entryOf nodes)).map PhaseTest.test_id = order := by
  intro order
  induction order with
  | nil => intro _; simp
  | cons tid rest ih =>
      intro h
      obtain ⟨nd, hnd⟩ := Option.isSome_iff_exists.mp (h tid (by simp))
      have hid : nd.test_id = tid := by simpa using List.find?_some hnd
      simp [entryOf, hnd, phaseEntry, hid, ih (fun t ht => h t (by simp [ht]))]

/-- C8: for an execution order whose ids all resolve in the DAG, the phase
grouping succeeds; the concatenation of all phases' tests is exactly the
input order; every phase is either a singleton sequential phase for a
non-parallel node or a nonempty all-parallel phase; and no two parallel
phases are adjacent, so each maximal run of consecutive parallel nodes ends
up in a single parallel phase and a trailing run is flushed at the end. -/
theorem phase_grouping (order : List String) (nodes : List TestNode) (maxPar : Nat)
    (hfound : ∀ tid ∈ order, (nodes.find? (fun nd => nd.test_id = tid)).isSome = true) :
    ∃ phases, groupByExecutionPhases order nodes maxPar = some phases ∧
      (phases.map Phase.tests).flatten = order.filterMap (entryOf nodes) ∧
      (phases.map Phase.tests).flatten.map PhaseTest.test_id = order ∧
      (∀ ph ∈ phases, WellFormedPhase ph) ∧
      List.Chain' (fun a b => a.phase_type = "parallel" → b.phase_type ≠ "parallel") phases := by
  obtain ⟨out, hout, hjoin, hwf, hchain⟩ :=
    groupPhasesGo_spec nodes maxPar order [] [] hfound (by simp) (by simp)
      (List.chain'_nil) (by simp)
  refine ⟨out, hout, ?_, ?_, hwf, hchain⟩
  · simpa using hjoin
  · rw [show (out.map Phase.tests).flatten = order.filterMap (entryOf nodes) by simpa using hjoin]
    exact filterMap_entryOf_ids nodes order hfound

theorem phase_grouping_witness :
    (∀ tid ∈ ["vp", "cmp", "dt"],
      (([⟨"vp", [], true, 0, 60⟩, ⟨"cmp", ["vp"], false, 1, 60⟩,
          ⟨"dt", ["vp"], true, 0, 30⟩] : List TestNode).find?
        (fun nd => nd.test_id = tid)).isSome = true) ∧
    (∃ phases, groupByExecutionPhases ["vp", "cmp", "dt"]
        [⟨"vp", [], true, 0, 60⟩, ⟨"cmp", ["vp"], false, 1, 60⟩,
          ⟨"dt", ["vp"], true, 0, 30⟩] 2 = some phases ∧
      (phases.map Phase.tests).flatten = ["vp", "cmp", "dt"].filterMap
        (entryOf [⟨"vp", [], true, 0, 60⟩, ⟨"cmp", ["vp"], false, 1, 60⟩,
          ⟨"dt", ["vp"], true, 0, 30⟩]) ∧
      (phases.map Phase.tests).flatten.map PhaseTest.test_id = ["vp", "cmp", "dt"] ∧
      (∀ ph ∈ phases, WellFormedPhase ph) ∧
      List.Chain' (fun a b => a.phase_type = "parallel" → b.phase_type ≠ "parallel") phases) :=
  ⟨by decide,
    phase_grouping ["vp", "cmp", "dt"]
      [⟨"vp", [], true, 0, 60⟩, ⟨"cmp", ["vp"], false, 1, 60⟩, ⟨"dt", ["vp"], true, 0, 30⟩]
      2 (by decide)⟩

theorem count_replicate_beq {α : Type} [DecidableEq α] (a b : α) (n : Nat) :
    (List.replicate n b).count a = if b = a then n else 0 := by
  induction n with
  | zero => simp
  | succ k ih => by_cases h : b = a <;> simp [List.replicate_succ, List.count_cons, ih, h]

theorem nodeIds_cons_nodup {nd : TestNode} {t : List TestNode}
    (hN : (nodeIds (nd :: t)).Nodup) :
    nd.test_id ∉ nodeIds t ∧ (nodeIds t).Nodup := by
  rw [nodeIds, List.map_cons, List.nodup_cons] at hN
  exact hN

theorem foldl_dictInsert_eq :
    ∀ (nodes : List TestNode) (ks : List String), (nodeIds nodes).Nodup →
      (∀ nd ∈ nodes, nd.test_id ∉ ks) →
      nodes.foldl (fun acc nd => dictInsert acc nd.test_id) ks = ks ++ nodeIds nodes := by
  intro nodes
  induction nodes with
  | nil => intro ks _ _; simp [nodeIds]
  | cons nd t ih =>
      intro ks hN hdisj
      obtain ⟨hhead, hN'⟩ := nodeIds_cons_nodup hN
      have hnotin : nd.test_id ∉ ks := hdisj nd (by simp)
      have hstep : dictInsert ks nd.test_id = ks ++ [nd.test_id] := by
        simp [dictInsert, hnotin]
      rw [List.foldl_cons, hstep, ih (ks ++ [nd.test_id]) hN' ?_]
      · simp [nodeIds]
      · intro m hm hmem
        rcases List.mem_append.mp hmem with h | h
        · exact hdisj m (by simp [hm]) h
        · rcases List.mem_singleton.mp h with heq
          apply hhead
          rw [← heq]
          exact List.mem_map_of_mem _ hm

theorem inDegreeKeys_eq (nodes : List TestNode) (hN : (nodeIds nodes).Nodup) :
    inDegreeKeys nodes = nodeIds nodes := by
  simpa [inDegreeKeys] using foldl_dictInsert_eq nodes [] hN (by simp)

theorem find?_test_id_eq :
    ∀ (nodes : List TestNode), (nodeIds nodes).Nodup →
      ∀ nd ∈ nodes, nodes.find? (fun m => m.test_id = nd.test_id) = some nd := by
  intro nodes
  induction nodes with
  | nil => intro _ nd h; simp at h
  | cons m t ih =>
      intro hN nd hnd
      obtain ⟨hhead, hN'⟩ := nodeIds_cons_nodup hN
      rcases List.mem_cons.mp hnd with rfl | hmem
      · exact List.find?_cons_of_pos t (by simp)
      · have hne : m.test_id ≠ nd.test_id := by
          intro h
          apply hhead
          rw [h]
          exact List.mem_map_of_mem _ hmem
        rw [List.find?_cons_of_neg t (by simp [hne])]
        exact ih hN' nd hmem

theorem depsOf_eq_of_mem (nodes : List TestNode) (hN : (nodeIds nodes).Nodup)
    (nd : TestNode) (h : nd ∈ nodes) : depsOf nodes nd.test_id = nd.dependencies := by
  simp [depsOf, find?_test_id_eq nodes hN nd h]

theorem depsOf_eq_nil_of_not_mem (nodes : List TestNode) (x : String)
    (hx : x ∉ nodeIds nodes) : depsOf nodes x = [] := by
  rcases hfind : nodes.find? (fun nd => nd.test_id = x) with _ | nd
  · simp [depsOf, hfind]
  · exfalso
    apply hx
    have h2 := List.find?_some hfind
    simp only [decide_eq_true_eq] at h2
    rw [← h2]
    exact List.mem_map_of_mem _ (List.mem_of_find?_eq_some hfind)

theorem depsOf_mem_ids (nodes : List TestNode) {x d : String}
    (hd : d ∈ depsOf nodes x)
    (hR : ∀ nd ∈ nodes, ∀ d ∈ nd.dependencies, d ∈ nodeIds nodes) :
    d ∈ nodeIds nodes := by
  rcases hfind : nodes.find? (fun nd => nd.test_id = x) with _ | nd
  · rw [depsOf, hfind] at hd
    simp at hd
  · rw [depsOf, hfind] at hd
    exact hR nd (List.mem_of_find?_eq_some hfind) d hd

theorem depRel_iff (nodes : List TestNode) (hN : (nodeIds nodes).Nodup) (d x : String) :
    depRel nodes d x ↔ x ∈ nodeIds nodes ∧ d ∈ depsOf nodes x := by
  constructor
  · rintro ⟨nd, hmem, rfl, hd⟩
    exact ⟨List.mem_map_of_mem _ hmem, by rwa [depsOf_eq_of_mem nodes hN nd hmem]⟩
  · rintro ⟨hx, hd⟩
    rcases List.mem_map.mp hx with ⟨nd, hmem, rfl⟩
    exact ⟨nd, hmem, rfl, by rwa [depsOf_eq_of_mem nodes hN nd hmem] at hd⟩

theorem foldl_update_add_apply (t : String) :
    ∀ (deps : List String) (m : String → Int) (y : String),
      (deps.foldl (fun m2 _ => Function.update m2 t (m2 t + 1)) m) y
        = if y = t then m t + deps.length else m y := by
  intro deps
  induction deps with
  | nil =>
      intro m y
      by_cases hy : y = t <;> simp [hy]
  | cons d ds ih =>
      intro m y
      rw [List.foldl_cons, ih]
      by_cases hy : y = t
      · subst hy
        rw [if_pos rfl, if_pos rfl, Function.update_same]
        simp only [List.length_cons]
        push_cast
        ring
      · rw [if_neg hy, if_neg hy, Function.update_noteq hy]

theorem foldl_update_add (t : String) (deps : List String) (m : String → Int) :
    deps.foldl (fun m2 _ => Function.update m2 t (m2 t + 1)) m
      = Function.update m t (m t + deps.length) := by
  funext y
  rw [foldl_update_add_apply]
  by_cases hy : y = t
  · subst hy
    rw [if_pos rfl, Function.update_same]
  · rw [if_neg hy, Function.update_noteq hy]

theorem buildInDegree_aux :
    ∀ (nodes : List TestNode) (m : String → Int), (nodeIds nodes).Nodup →
      ∀ x, (nodes.foldl
          (fun acc nd =>
            nd.dependencies.foldl
              (fun m2 _ => Function.update m2 nd.test_id (m2 nd.test_id + 1))
              (Function.update acc nd.test_id 0)) m) x
        = (match nodes.find? (fun nd => nd.test_id = x) with
            | some nd => (nd.dependencies.length : Int)
            | Option.none => m x) := by
  intro nodes
  induction nodes with
  | nil => intro m _ x; simp
  | cons nd t ih =>
      intro m hN x
      obtain ⟨hhead, hN'⟩ := nodeIds_cons_nodup hN
      rw [List.foldl_cons,
        foldl_update_add nd.test_id nd.dependencies (Function.update m nd.test_id 0),
        Function.update_idem, Function.update_same, ih _ hN' x]
      by_cases hx : nd.test_id = x
      · have hfind1 : (nd :: t).find? (fun n => n.test_id = x) = some nd :=
          List.find?_cons_of_pos t (by simp [hx])
      -- `x` cannot reappear among `t`, so the tail lookup is empty
        have hfind2 : t.find? (fun n => n.test_id = x) = Option.none := by
          rw [List.find?_eq_none]
          intro m2 hm2
          simp only [decide_eq_true_eq]
          intro heq
          apply hhead
          rw [hx, ← heq]
          exact List.mem_map_of_mem _ hm2
        rw [hfind1, hfind2]
        simp [Function.update, hx]
      · have hfind1 : (nd :: t).find? (fun n => n.test_id = x) = t.find? (fun n => n.test_id = x) :=
          List.find?_cons_of_neg t (by simp [hx])
        rw [hfind1]
        rcases hfind2 : t.find? (fun n => n.test_id = x) with _ | m2 <;> rw [hfind2]
        simp [Function.update_noteq (fun h => hx h.symm)]

theorem buildInDegree_eq (nodes : List TestNode) (hN : (nodeIds nodes).Nodup) (x : String) :
    buildInDegree nodes x = ((depsOf nodes x).length : Int) := by
  rw [buildInDegree, buildInDegree_aux nodes (fun _ => 0) hN x]
  rcases hfind : nodes.find? (fun nd => nd.test_id = x) with _ | nd <;>
    simp [depsOf, hfind]

theorem foldl_graph_update (t : String) :
    ∀ (deps : List String) (g : String → List String) (c : String),
      (deps.foldl (fun g2 dep => Function.update g2 dep (g2 dep ++ [t])) g) c
        = g c ++ List.replicate (deps.count c) t := by
  intro deps
  induction deps with
  | nil => intro g c; simp
  | cons d ds ih =>
      intro g c
      rw [List.foldl_cons, ih]
      by_cases hdc : d = c
      · subst hdc
        rw [Function.update_same, List.count_cons_self, List.replicate_succ]
        simp
      · rw [Function.update_noteq (fun h => hdc h.symm),
          List.count_cons_of_ne (fun h => hdc h.symm)]

theorem buildGraph_count_aux :
    ∀ (nodes : List TestNode) (g : String → List String), (nodeIds nodes).Nodup →
      ∀ c x, ((nodes.foldl
          (fun acc nd =>
            nd.dependencies.foldl
              (fun g2 dep => Function.update g2 dep (g2 dep ++ [nd.test_id])) acc) g) c).count x
        = (g c).count x +
          (match nodes.find? (fun nd => nd.test_id = x) with
            | some nd => nd.dependencies.count c
            | Option.none => 0) := by
  intro nodes
  induction nodes with
  | nil => intro g _ c x; simp
  | cons nd t ih =>
      intro g hN c x
      obtain ⟨hhead, hN'⟩ := nodeIds_cons_nodup hN
      rw [List.foldl_cons, ih _ hN' c x]
      have hstep : ((nd.dependencies.foldl
          (fun g2 dep => Function.update g2 dep (g2 dep ++ [nd.test_id])) g) c).count x
            = (g c).count x + if nd.test_id = x then nd.dependencies.count c else 0 := by
        rw [foldl_graph_update nd.test_id nd.dependencies g c, List.count_append,
          count_replicate_beq]
      rw [hstep]
      by_cases hx : nd.test_id = x
      · have hfind1 : (nd :: t).find? (fun n => n.test_id = x) = some nd :=
          List.find?_cons_of_pos t (by simp [hx])
        have hfind2 : t.find? (fun n => n.test_id = x) = Option.none := by
          rw [List.find?_eq_none]
          intro m2 hm2
          simp only [decide_eq_true_eq]
          intro heq
          apply hhead
          rw [hx, ← heq]
          exact List.mem_map_of_mem _ hm2
        simp [hfind1, hfind2, hx]
      · have hfind1 : (nd :: t).find? (fun n => n.test_id = x) = t.find? (fun n => n.test_id = x) :=
          List.find?_cons_of_neg t (by simp [hx])
        rcases hfind2 : t.find? (fun n => n.test_id = x) with _ | m2 <;>
          simp [hfind1, hfind2, hx]

theorem buildGraph_count (nodes : List TestNode) (hN : (nodeIds nodes).Nodup)
    (c x : String) : (buildGraph nodes c).count x = (depsOf nodes x).count c := by
  rw [buildGraph, buildGraph_count_aux nodes (fun _ => []) hN c x]
  rcases hfind : nodes.find? (fun nd => nd.test_id = x) with _ | nd <;>
    simp [depsOf, hfind]

theorem mem_buildGraph (nodes : List TestNode) (hN : (nodeIds nodes).Nodup)
    (c x : String) :
    x ∈ buildGraph nodes c ↔ x ∈ nodeIds nodes ∧ c ∈ depsOf nodes x := by
  constructor
  · intro hx
    have hpos : 0 < (buildGraph nodes c).count x := List.count_pos_iff_mem.mpr hx
    rw [buildGraph_count nodes hN] at hpos
    have hc : c ∈ depsOf nodes x := List.count_pos_iff_mem.mp hpos
    refine ⟨?_, hc⟩
    by_contra hids
    rw [depsOf_eq_nil_of_not_mem nodes x hids] at hc
    simp at hc
  · rintro ⟨_, hc⟩
    have hpos : 0 < (depsOf nodes x).count c := List.count_pos_iff_mem.mpr hc
    rw [← buildGraph_count nodes hN] at hpos
    exact List.count_pos_iff_mem.mp hpos

theorem processNeighbors_cons (nb : String) (t : List String)
    (indeg : String → Int) (queue : List String) :
    processNeighbors (nb :: t) indeg queue
      = processNeighbors t (Function.update indeg nb (indeg nb - 1))
          (if indeg nb - 1 = 0 then queue ++ [nb] else queue) := by
  simp [processNeighbors]

theorem processNeighbors_fst :
    ∀ (ns : List String) (indeg : String → Int) (queue : List String) (x : String),
      (processNeighbors ns indeg queue).1 x = indeg x - ns.count x := by
  intro ns
  induction ns with
  | nil => intro indeg queue x; simp [processNeighbors]
  | cons nb t ih =>
      intro indeg queue x
      rw [processNeighbors_cons, ih]
      by_cases hx : x = nb
      · subst hx
        rw [Function.update_same, List.count_cons_self]
        push_cast
        ring
      · rw [Function.update_noteq hx, List.count_cons_of_ne hx]

theorem pn_tail_le (nb : String) (t : List String) (indeg : String → Int)
    (h : ∀ x ∈ nb :: t, ((nb :: t).count x : Int) ≤ indeg x) :
    ∀ y ∈ t, (t.count y : Int) ≤ Function.update indeg nb (indeg nb - 1) y := by
  intro y hy
  by_cases hynb : y = nb
  · subst hynb
    rw [Function.update_same]
    have hh := h y (by simp)
    rw [List.count_cons_self] at hh
    push_cast at hh
    omega
  · rw [Function.update_noteq hynb]
    have hh := h y (List.mem_cons_of_mem _ hy)
    rwa [List.count_cons_of_ne hynb] at hh

theorem pn_head_not_mem_tail (nb : String) (t : List String) (indeg : String → Int)
    (h : ∀ x ∈ nb :: t, ((nb :: t).count x : Int) ≤ indeg x)
    (hnb1 : indeg nb = 1) : nb ∉ t ∧ (nb :: t).count nb = 1 := by
  have hh := h nb (by simp)
  rw [List.count_cons_self, hnb1] at hh
  push_cast at hh
  have ht0 : t.count nb = 0 := by omega
  constructor
  · intro hmem
    have := List.count_pos_iff_mem.mpr hmem
    omega
  · rw [List.count_cons_self, ht0]

theorem processNeighbors_mem :
    ∀ (ns : List String) (indeg : String → Int) (queue : List String),
      (∀ x ∈ ns, (ns.count x : Int) ≤ indeg x) →
      ∀ x, x ∈ (processNeighbors ns indeg queue).2 ↔
        x ∈ queue ∨ (x ∈ ns ∧ indeg x = ns.count x) := by
  intro ns
  induction ns with
  | nil => intro indeg queue _ x; simp [processNeighbors]
  | cons nb t ih =>
      intro indeg queue h x
      rw [processNeighbors_cons, ih _ _ (pn_tail_le nb t indeg h)]
      by_cases hv : indeg nb - 1 = 0
      · have hnb1 : indeg nb = 1 := by omega
        obtain ⟨hnbt, hcnt⟩ := pn_head_not_mem_tail nb t indeg h hnb1
        rw [if_pos hv]
        constructor
        · rintro (hq | ⟨hxt, hxi⟩)
          · rcases List.mem_append.mp hq with hq2 | hq2
            · exact Or.inl hq2
            · rcases List.mem_singleton.mp hq2 with rfl
              refine Or.inr ⟨by simp, ?_⟩
              rw [hnb1, hcnt]
              rfl
          · have hxnb : x ≠ nb := fun hh => hnbt (hh ▸ hxt)
            refine Or.inr ⟨List.mem_cons_of_mem _ hxt, ?_⟩
            rw [Function.update_noteq hxnb] at hxi
            rw [List.count_cons_of_ne hxnb]
            omega
        · rintro (hq | ⟨hxmem, hxi⟩)
          · exact Or.inl (List.mem_append_left _ hq)
          · rcases List.mem_cons.mp hxmem with rfl | hxt
            · exact Or.inl (List.mem_append_right _ (by simp))
            · have hxnb : x ≠ nb := fun hh => hnbt (hh ▸ hxt)
              refine Or.inr ⟨hxt, ?_⟩
              rw [Function.update_noteq hxnb]
              rw [List.count_cons_of_ne hxnb] at hxi
              omega
      · rw [if_neg hv]
        constructor
        · rintro (hq | ⟨hxt, hxi⟩)
          · exact Or.inl hq
          · by_cases hxnb : x = nb
            · subst hxnb
              rw [Function.update_same] at hxi
              refine Or.inr ⟨by simp, ?_⟩
              rw [List.count_cons_self]
              push_cast
              omega
            · rw [Function.update_noteq hxnb] at hxi
              refine Or.inr ⟨List.mem_cons_of_mem _ hxt, ?_⟩
              rw [List.count_cons_of_ne hxnb]
              omega
        · rintro (hq | ⟨hxmem, hxi⟩)
          · exact Or.inl hq
          · rcases List.mem_cons.mp hxmem with rfl | hxt
            · by_cases hnbt : x ∈ t
              · refine Or.inr ⟨hnbt, ?_⟩
                rw [Function.update_same]
                rw [List.count_cons_self] at hxi
                push_cast at hxi ⊢
                omega
              · exfalso
                rw [List.count_cons_self] at hxi
                have ht0 : t.count x = 0 := by
                  by_contra hc
                  exact hnbt (List.count_pos_iff_mem.mp (Nat.pos_of_ne_zero hc))
                rw [ht0] at hxi
                push_cast at hxi
                exact hv (by omega)
            · by_cases hxnb : x = nb
              · subst hxnb
                refine Or.inr ⟨hxt, ?_⟩
                rw [Function.update_same]
                rw [List.count_cons_self] at hxi
                push_cast at hxi ⊢
                omega
              · refine Or.inr ⟨hxt, ?_⟩
                rw [Function.update_noteq hxnb]
                rw [List.count_cons_of_ne hxnb] at hxi
                omega

theorem processNeighbors_nodup :
    ∀ (ns : List String) (indeg : String → Int) (queue : List String),
      (∀ x ∈ ns, (ns.count x : Int) ≤ indeg x) →
      queue.Nodup →
      (∀ x ∈ ns, indeg x = (ns.count x : Int) → x ∉ queue) →
      (processNeighbors ns indeg queue).2.Nodup := by
  intro ns
  induction ns with
  | nil => intro indeg queue _ hq _; simpa [processNeighbors] using hq
  | cons nb t ih =>
      intro indeg queue h hq hnew
      rw [processNeighbors_cons]
      by_cases hv : indeg nb - 1 = 0
      · have hnb1 : indeg nb = 1 := by omega
        obtain ⟨hnbt, hcnt⟩ := pn_head_not_mem_tail nb t indeg h hnb1
        rw [if_pos hv]
        refine ih _ _ (pn_tail_le nb t indeg h) ?_ ?_
        · have hnbq : nb ∉ queue := by
            apply hnew nb (by simp)
            rw [hnb1, hcnt]
            rfl
          simp [List.nodup_append, hq, hnbq]
        · intro x hxt hxi
          have hxnb : x ≠ nb := fun hh => hnbt (hh ▸ hxt)
          rw [Function.update_noteq hxnb] at hxi
          have hxq : x ∉ queue := by
            apply hnew x (List.mem_cons_of_mem _ hxt)
            rw [List.count_cons_of_ne hxnb]
            omega
          simp [hxq, hxnb]
      · rw [if_neg hv]
        refine ih _ _ (pn_tail_le nb t indeg h) hq ?_
        intro x hxt hxi
        by_cases hxnb : x = nb
        · subst hxnb
          rw [Function.update_same] at hxi
          apply hnew x (by simp)
          rw [List.count_cons_self]
          push_cast
          omega
        · rw [Function.update_noteq hxnb] at hxi
          apply hnew x (List.mem_cons_of_mem _ hxt)
          rw [List.count_cons_of_ne hxnb]
          omega

theorem filter_length_split (l : List String) (order : List String) (c : String)
    (hc : c ∉ order) :
    (l.filter (fun d => decide (d ∉ order))).length
      = (l.filter (fun d => decide (d ∉ order ++ [c]))).length + l.count c := by
  induction l with
  | nil => simp
  | cons d t ihl =>
      by_cases h1 : d = c
      · subst h1
        have hd1 : d ∉ order := hc
        have hd2 : d ∈ order ++ [d] := List.mem_append_right _ (by simp)
        simp only [List.filter_cons, List.count_cons_self, decide_eq_true_eq]
        rw [if_pos (by simp [hd1]), if_neg (by simp [hd2])]
        simp only [List.length_cons]
        omega
      · by_cases h2 : d ∈ order
        · have hd2 : d ∈ order ++ [c] := List.mem_append_left _ h2
          simp only [List.filter_cons, decide_eq_true_eq]
          rw [if_neg (by simp [h2]), if_neg (by simp [hd2]),
            List.count_cons_of_ne (fun hcd => h1 hcd.symm)]
          exact ihl
        · have hd2 : d ∉ order ++ [c] := by
            intro hmem
            rcases List.mem_append.mp hmem with hmem | hmem
            · exact h2 hmem
            · exact h1 (List.mem_singleton.mp hmem)
          simp only [List.filter_cons, decide_eq_true_eq]
          rw [if_pos (by simp [h2]), if_pos (by simp [hd2]),
            List.count_cons_of_ne (fun hcd => h1 hcd.symm)]
          simp only [List.length_cons]
          omega

theorem kahn_step (nodes : List TestNode) (hN : (nodeIds nodes).Nodup)
    (current : String) (rest : List String) (indeg : String → Int) (order : List String)
    (hinv : KahnInv nodes (current :: rest) indeg order) :
    KahnInv nodes (processNeighbors (buildGraph nodes current) indeg rest).2
      (processNeighbors (buildGraph nodes current) indeg rest).1 (order ++ [current]) := by
  have hcur_mem : current ∈ nodeIds nodes := hinv.queue_sub current (by simp)
  have hcur_fresh : current ∉ order := hinv.queue_fresh current (by simp)
  have hcur_ready : ∀ d ∈ depsOf nodes current, d ∈ order :=
    hinv.queue_ready current (by simp)
  obtain ⟨hcur_rest, hrest_nodup⟩ := List.nodup_cons.mp hinv.queue_nodup
  have hmem_ns : ∀ x, x ∈ buildGraph nodes current ↔
      x ∈ nodeIds nodes ∧ current ∈ depsOf nodes x := mem_buildGraph nodes hN current
  have hfiltc : ∀ x : String,
      ((depsOf nodes x).filter (fun d => decide (d ∉ order))).count current
        = (depsOf nodes x).count current :=
    fun x => List.count_filter (by simp [hcur_fresh])
  have h_le : ∀ x ∈ buildGraph nodes current,
      ((buildGraph nodes current).count x : Int) ≤ indeg x := by
    intro x hx
    obtain ⟨hxid, _⟩ := (hmem_ns x).mp hx
    rw [buildGraph_count nodes hN current x, hinv.indeg_spec x hxid]
    have h1 : (depsOf nodes x).count current
        ≤ ((depsOf nodes x).filter (fun d => decide (d ∉ order))).length := by
      rw [← hfiltc x]
      exact List.count_le_length _ _
    exact_mod_cast h1
  -- a node whose indegree equals its in-edge count has all unpopped
  -- dependencies equal to `current`, and conversely
  have keyA : ∀ x ∈ nodeIds nodes,
      indeg x = ((buildGraph nodes current).count x : Int) →
      ∀ d ∈ depsOf nodes x, d ∉ order → d = current := by
    intro x hxid hxi d hdmem hdno
    have hlen : ((depsOf nodes x).filter (fun d => decide (d ∉ order))).length
        = (depsOf nodes x).count current := by
      have h1 := hinv.indeg_spec x hxid
      rw [buildGraph_count nodes hN current x] at hxi
      rw [h1] at hxi
      exact_mod_cast hxi
    have hall := List.count_eq_length.mp (by rw [hfiltc x, hlen])
    exact (hall d (List.mem_filter.mpr ⟨hdmem, by simp [hdno]⟩)).symm
  have keyB : ∀ x ∈ nodeIds nodes,
      (∀ d ∈ depsOf nodes x, d ∉ order → d = current) →
      indeg x = ((buildGraph nodes current).count x : Int) := by
    intro x hxid hall
    have hallf : ∀ b ∈ (depsOf nodes x).filter (fun d => decide (d ∉ order)),
        current = b := by
      intro b hb
      obtain ⟨hbmem, hbno⟩ := List.mem_filter.mp hb
      exact (hall b hbmem (by simpa using hbno)).symm
    have hlen := List.count_eq_length.mpr hallf
    rw [hinv.indeg_spec x hxid, buildGraph_count nodes hN current x, ← hlen, hfiltc x]
  have hnew : ∀ x ∈ buildGraph nodes current,
      indeg x = ((buildGraph nodes current).count x : Int) → x ∉ rest := by
    intro x hx hxi hxr
    obtain ⟨_, hcd⟩ := (hmem_ns x).mp hx
    exact hcur_fresh (hinv.queue_ready x (List.mem_cons_of_mem _ hxr) current hcd)
  have hfst := processNeighbors_fst (buildGraph nodes current) indeg rest
  have hmemq := processNeighbors_mem (buildGraph nodes current) indeg rest h_le
  refine
    { order_nodup := ?_
      order_sub := ?_
      queue_nodup := processNeighbors_nodup _ _ _ h_le hrest_nodup hnew
      queue_sub := ?_
      queue_fresh := ?_
      queue_ready := ?_
      indeg_spec := ?_
      deps_before := ?_
      pending_dep := ?_ }
  · simp [List.nodup_append, hinv.order_nodup, hcur_fresh]
  · intro x hx
    rcases List.mem_append.mp hx with hx | hx
    · exact hinv.order_sub x hx
    · rcases List.mem_singleton.mp hx with rfl
      exact hcur_mem
  · intro x hx
    rcases (hmemq x).mp hx with hx | ⟨hxns, _⟩
    · exact hinv.queue_sub x (List.mem_cons_of_mem _ hx)
    · exact ((hmem_ns x).mp hxns).1
  · intro x hx hmem
    rcases (hmemq x).mp hx with hx2 | ⟨hxns, _⟩
    · rcases List.mem_append.mp hmem with hmem | hmem
      · exact hinv.queue_fresh x (List.mem_cons_of_mem _ hx2) hmem
      · rcases List.mem_singleton.mp hmem with rfl
        exact hcur_rest hx2
    · obtain ⟨hxid, hcd⟩ := (hmem_ns x).mp hxns
      rcases List.mem_append.mp hmem with hmem | hmem
      · exact hcur_fresh (hinv.deps_before x hmem current hcd).1
      · rcases List.mem_singleton.mp hmem with rfl
        exact hcur_fresh (hcur_ready x hcd)
  · intro x hx d hd
    rcases (hmemq x).mp hx with hx2 | ⟨hxns, hxi⟩
    · exact List.mem_append_left _ (hinv.queue_ready x (List.mem_cons_of_mem _ hx2) d hd)
    · obtain ⟨hxid, _⟩ := (hmem_ns x).mp hxns
      by_cases hdo : d ∈ order
      · exact List.mem_append_left _ hdo
      · rcases keyA x hxid hxi d hd hdo with rfl
        exact List.mem_append_right _ (by simp)
  · intro x hxid
    rw [hfst x, hinv.indeg_spec x hxid, buildGraph_count nodes hN current x,
      filter_length_split (depsOf nodes x) order current hcur_fresh]
    push_cast
    ring
  · intro x hx d hd
    rcases List.mem_append.mp hx with hx2 | hx2
    · obtain ⟨hdmem, hidx⟩ := hinv.deps_before x hx2 d hd
      refine ⟨List.mem_append_left _ hdmem, ?_⟩
      rw [List.indexOf_append_of_mem hdmem, List.indexOf_append_of_mem hx2]
      exact hidx
    · rcases List.mem_singleton.mp hx2 with rfl
      have hdmem : d ∈ order := hcur_ready d hd
      refine ⟨List.mem_append_left _ hdmem, ?_⟩
      rw [List.indexOf_append_of_mem hdmem, List.indexOf_append_of_not_mem hcur_fresh,
        List.indexOf_cons_self]
      have := List.indexOf_lt_length.mpr hdmem
      omega
  · intro x hxid hxo' hxq'
    have hxo : x ∉ order := fun h => hxo' (List.mem_append_left _ h)
    have hxcur : x ≠ current := by
      intro h
      exact hxo' (List.mem_append_right _ (by simp [h]))
    have hxq : x ∉ current :: rest := by
      intro h
      rcases List.mem_cons.mp h with h | h
      · exact hxcur h
      · exact hxq' ((hmemq x).mpr (Or.inl h))
    obtain ⟨d0, hd0mem, hd0⟩ := hinv.pending_dep x hxid hxo hxq
    by_cases hall : ∀ d ∈ depsOf nodes x, d ∉ order → d = current
    · exfalso
      have hd0c : d0 = current := hall d0 hd0mem hd0
      have hxns : x ∈ buildGraph nodes current :=
        (hmem_ns x).mpr ⟨hxid, hd0c ▸ hd0mem⟩
      exact hxq' ((hmemq x).mpr (Or.inr ⟨hxns, keyB x hxid hall⟩))
    · push_neg at hall
      obtain ⟨d, hdmem, hdno, hdnc⟩ := hall
      refine ⟨d, hdmem, ?_⟩
      intro hmem
      rcases List.mem_append.mp hmem with hmem | hmem
      · exact hdno hmem
      · exact hdnc (List.mem_singleton.mp hmem)

theorem kahn_init (nodes : List TestNode) (hN : (nodeIds nodes).Nodup) :
    KahnInv nodes ((inDegreeKeys nodes).filter (fun k => buildInDegree nodes k = 0))
      (buildInDegree nodes) [] := by
  have hkeys := inDegreeKeys_eq nodes hN
  refine
    { order_nodup := List.nodup_nil
      order_sub := by simp
      queue_nodup := ?_
      queue_sub := ?_
      queue_fresh := by simp
      queue_ready := ?_
      indeg_spec := ?_
      deps_before := by simp
      pending_dep := ?_ }
  · rw [hkeys]
    exact hN.filter _
  · intro x hx
    rw [hkeys] at hx
    exact (List.mem_filter.mp hx).1
  · intro x hx d hd
    rw [hkeys] at hx
    have h0 : buildInDegree nodes x = 0 := by simpa using (List.mem_filter.mp hx).2
    rw [buildInDegree_eq nodes hN x] at h0
    have hnil : depsOf nodes x = [] := List.length_eq_zero.mp (by exact_mod_cast h0)
    rw [hnil] at hd
    simp at hd
  · intro x hxid
    rw [buildInDegree_eq nodes hN x]
    have hfe : (depsOf nodes x).filter (fun d => decide (d ∉ ([] : List String)))
        = depsOf nodes x := List.filter_eq_self.mpr (by intro a _; simp)
    rw [hfe]
  · intro x hxid hxo hxq
    rw [hkeys] at hxq
    have hne0 : ¬ buildInDegree nodes x = 0 := by
      intro h0
      exact hxq (List.mem_filter.mpr ⟨hxid, by simp [h0]⟩)
    rw [buildInDegree_eq nodes hN x] at hne0
    have hne : depsOf nodes x ≠ [] := by
      intro hnil
      apply hne0
      rw [hnil]
      rfl
    obtain ⟨d, hd⟩ := List.exists_mem_of_ne_nil _ hne
    exact ⟨d, hd, by simp⟩

theorem kahnLoop_spec (nodes : List TestNode) (hN : (nodeIds nodes).Nodup) :
    ∀ (fuel : Nat) (queue : List String) (indeg : String → Int) (order : List String),
      KahnInv nodes queue indeg order →
      (nodeIds nodes).length < order.length + fuel →
      ∃ r, kahnLoop (buildGraph nodes) fuel queue indeg order = r ∧
        (∃ suffix, r = order ++ suffix) ∧ r.Nodup ∧ (∀ x ∈ r, x ∈ nodeIds nodes) ∧
        (∀ x ∈ r, ∀ d ∈ depsOf nodes x, d ∈ r ∧ r.indexOf d < r.indexOf x) ∧
        (∀ x ∈ nodeIds nodes, x ∉ r → ∃ d ∈ depsOf nodes x, d ∉ r) := by
  intro fuel
  induction fuel with
  | zero =>
      intro queue indeg order hinv hfuel
      exfalso
      have h1 : order.toFinset.card = order.length :=
        List.toFinset_card_of_nodup hinv.order_nodup
      have h2 : order.toFinset ⊆ (nodeIds nodes).toFinset := fun a ha =>
        List.mem_toFinset.mpr (hinv.order_sub a (List.mem_toFinset.mp ha))
      have h3 := Finset.card_le_card h2
      have h4 := (nodeIds nodes).toFinset_card_le
      omega
  | succ fuel ih =>
      intro queue indeg order hinv hfuel
      match queue with
      | [] =>
          refine ⟨order, rfl, ⟨[], by simp⟩, hinv.order_nodup, hinv.order_sub, ?_, ?_⟩
          · intro x hx d hd
            obtain ⟨h1, h2⟩ := hinv.deps_before x hx d hd
            exact ⟨h1, h2⟩
          · intro x hxid hxr
            exact hinv.pending_dep x hxid hxr (by simp)
      | current :: rest =>
          have hstep := kahn_step nodes hN current rest indeg order hinv
          have hfuel' : (nodeIds nodes).length < (order ++ [current]).length + fuel := by
            simp only [List.length_append, List.length_cons, List.length_nil]
            omega
          obtain ⟨r, hr, hsuffix, hnd, hsub, hdeps, hstall⟩ := ih _ _ _ hstep hfuel'
          refine ⟨r, ?_, ?_, hnd, hsub, hdeps, hstall⟩
          · exact hr
          · obtain ⟨suffix, hs⟩ := hsuffix
            exact ⟨current :: suffix, by rw [hs]; simp⟩

/-- C1: on a well-formed acyclic test DAG (unique ids, resolving dependency
references, no dependency cycle), `_calculate_execution_order` succeeds and
returns an order containing each node's test id exactly once, in which every
dependency of a node appears strictly earlier than the node itself. -/
theorem topological_order_correct (nodes : List TestNode)
    (hN : (nodeIds nodes).Nodup)
    (hR : ∀ nd ∈ nodes, ∀ d ∈ nd.dependencies, d ∈ nodeIds nodes)
    (hA : ∀ x, ¬ Relation.TransGen (depRel nodes) x x) :
    ∃ order, calculateExecutionOrder nodes = Except.ok order ∧
      (∀ nd ∈ nodes, order.count nd.test_id = 1) ∧
      (∀ x ∈ order, x ∈ nodeIds nodes) ∧
      (∀ nd ∈ nodes, ∀ d ∈ nd.dependencies,
        d ∈ order ∧ order.indexOf d < order.indexOf nd.test_id) := by
  obtain ⟨r, hr, _, hnd, hsub, hdeps, hstall⟩ :=
    kahnLoop_spec nodes hN (2 * nodes.length + 1)
      ((inDegreeKeys nodes).filter (fun k => buildInDegree nodes k = 0))
      (buildInDegree nodes) [] (kahn_init nodes hN)
      (by simp only [nodeIds, List.length_map, List.length_nil]; omega)
  have hcomplete : ∀ x ∈ nodeIds nodes, x ∈ r := by
    by_contra hmissing
    push_neg at hmissing
    obtain ⟨x0, hx0id, hx0r⟩ := hmissing
    haveI : Finite {a : String // a ∈ nodeIds nodes} :=
      (List.finite_toSet (nodeIds nodes)).to_subtype
    let rel : {a : String // a ∈ nodeIds nodes} → {a : String // a ∈ nodeIds nodes} → Prop :=
      fun a b => Relation.TransGen (depRel nodes) a.1 b.1
    haveI : IsTrans {a : String // a ∈ nodeIds nodes} rel :=
      ⟨fun _ _ _ hab hbc => Relation.TransGen.trans hab hbc⟩
    haveI : IsIrrefl {a : String // a ∈ nodeIds nodes} rel := ⟨fun a => hA a.1⟩
    have hwf : WellFounded rel := Finite.wellFounded_of_trans_of_irrefl rel
    obtain ⟨a, haS, hamin⟩ :=
      hwf.has_min {a : {a : String // a ∈ nodeIds nodes} | a.1 ∉ r} ⟨⟨x0, hx0id⟩, hx0r⟩
    obtain ⟨d, hdmem, hdr⟩ := hstall a.1 a.2 haS
    have hdid : d ∈ nodeIds nodes := depsOf_mem_ids nodes hdmem hR
    have hedge : depRel nodes d a.1 := (depRel_iff nodes hN d a.1).mpr ⟨a.2, hdmem⟩
    exact hamin ⟨d, hdid⟩ hdr (Relation.TransGen.single hedge)
  have hlen : r.length = nodes.length := by
    have h1 : r.toFinset = (nodeIds nodes).toFinset :=
      Finset.Subset.antisymm
        (fun a ha => List.mem_toFinset.mpr (hsub a (List.mem_toFinset.mp ha)))
        (fun a ha => List.mem_toFinset.mpr (hcomplete a (List.mem_toFinset.mp ha)))
    have h2 : r.toFinset.card = r.length := List.toFinset_card_of_nodup hnd
    have h3 : (nodeIds nodes).toFinset.card = (nodeIds nodes).length :=
      List.toFinset_card_of_nodup hN
    have h4 : (nodeIds nodes).length = nodes.length := by
      simp [nodeIds]
    rw [h1, h3, h4] at h2
    omega
  refine ⟨r, ?_, ?_, hsub, ?_⟩
  · have hdef : calculateExecutionOrder nodes
        = if (kahnLoop (buildGraph nodes) (2 * nodes.length + 1)
            ((inDegreeKeys nodes).filter (fun k => buildInDegree nodes k = 0))
            (buildInDegree nodes) []).length = nodes.length
          then Except.ok (kahnLoop (buildGraph nodes) (2 * nodes.length + 1)
            ((inDegreeKeys nodes).filter (fun k => buildInDegree nodes k = 0))
            (buildInDegree nodes) [])
          else Except.error "Circular dependency detected in test DAG" := rfl
    rw [hdef, hr, if_pos hlen]
  · intro nd hndm
    exact List.count_eq_one_of_mem hnd (hcomplete _ (List.mem_map_of_mem _ hndm))
  · intro nd hndm d hd
    have hx : nd.test_id ∈ r := hcomplete _ (List.mem_map_of_mem _ hndm)
    exact hdeps nd.test_id hx d
      (by rw [depsOf_eq_of_mem nodes hN nd hndm]; exact hd)

theorem topological_order_correct_witness :
    (nodeIds [⟨"T1", [], false, 0, 60⟩]).Nodup ∧
    (∀ x, ¬ Relation.TransGen (depRel [⟨"T1", [], false, 0, 60⟩]) x x) ∧
    (∃ order, calculateExecutionOrder [⟨"T1", [], false, 0, 60⟩] = Except.ok order ∧
      (∀ nd ∈ ([⟨"T1", [], false, 0, 60⟩] : List TestNode), order.count nd.test_id = 1) ∧
      (∀ x ∈ order, x ∈ nodeIds [⟨"T1", [], false, 0, 60⟩]) ∧
      (∀ nd ∈ ([⟨"T1", [], false, 0, 60⟩] : List TestNode), ∀ d ∈ nd.dependencies,
        d ∈ order ∧ order.indexOf d < order.indexOf nd.test_id)) := by
  have hedge : ∀ a b, ¬ depRel [(⟨"T1", [], false, 0, 60⟩ : TestNode)] a b := by
    rintro a b ⟨nd, hnd, _, hdep⟩
    rcases List.mem_singleton.mp hnd with rfl
    simp at hdep
  have hTG : ∀ a b, ¬ Relation.TransGen (depRel [(⟨"T1", [], false, 0, 60⟩ : TestNode)]) a b := by
    intro a b hx
    induction hx with
    | single h => exact hedge _ _ h
    | tail _ h _ => exact hedge _ _ h
  have hA : ∀ x, ¬ Relation.TransGen (depRel [(⟨"T1", [], false, 0, 60⟩ : TestNode)]) x x :=
    fun x => hTG x x
  exact ⟨by decide, hA,
    topological_order_correct [⟨"T1", [], false, 0, 60⟩] (by decide) (by decide) hA⟩

/-- C2: on a test DAG with unique, resolving ids whose dependency relation
has a cycle, `_calculate_execution_order` raises the fatal
circular-dependency configuration error rather than returning any order. -/
theorem cycle_detected (nodes : List TestNode)
    (hN : (nodeIds nodes).Nodup)
    (hR : ∀ nd ∈ nodes, ∀ d ∈ nd.dependencies, d ∈ nodeIds nodes)
    (hC : ∃ x, Relation.TransGen (depRel nodes) x x) :
    calculateExecutionOrder nodes
      = Except.error "Circular dependency detected in test DAG" := by
  obtain ⟨r, hr, _, hnd, hsub, hdeps, hstall⟩ :=
    kahnLoop_spec nodes hN (2 * nodes.length + 1)
      ((inDegreeKeys nodes).filter (fun k => buildInDegree nodes k = 0))
      (buildInDegree nodes) [] (kahn_init nodes hN)
      (by simp only [nodeIds, List.length_map, List.length_nil]; omega)
  have hlen : r.length ≠ nodes.length := by
    intro hlen
    have hcomplete : ∀ x ∈ nodeIds nodes, x ∈ r := by
      have h1 : r.toFinset ⊆ (nodeIds nodes).toFinset := fun a ha =>
        List.mem_toFinset.mpr (hsub a (List.mem_toFinset.mp ha))
      have hcard : (nodeIds nodes).toFinset.card ≤ r.toFinset.card := by
        rw [List.toFinset_card_of_nodup hnd, List.toFinset_card_of_nodup hN]
        have h4 : (nodeIds nodes).length = nodes.length := by simp [nodeIds]
        omega
      have heq := Finset.eq_of_subset_of_card_le h1 hcard
      intro x hx
      exact List.mem_toFinset.mp (heq ▸ List.mem_toFinset.mpr hx)
    have hmono : ∀ a b, Relation.TransGen (depRel nodes) a b →
        r.indexOf a < r.indexOf b := by
      intro a b h
      induction h with
      | single hedge =>
          obtain ⟨hbid, hadep⟩ := (depRel_iff nodes hN _ _).mp hedge
          exact (hdeps _ (hcomplete _ hbid) _ hadep).2
      | tail _ hedge ihab =>
          obtain ⟨hcid, hdep⟩ := (depRel_iff nodes hN _ _).mp hedge
          exact lt_trans ihab (hdeps _ (hcomplete _ hcid) _ hdep).2
    obtain ⟨x, hx⟩ := hC
    exact lt_irrefl _ (hmono x x hx)
  have hdef : calculateExecutionOrder nodes
      = if (kahnLoop (buildGraph nodes) (2 * nodes.length + 1)
          ((inDegreeKeys nodes).filter (fun k => buildInDegree nodes k = 0))
          (buildInDegree nodes) []).length = nodes.length
        then Except.ok (kahnLoop (buildGraph nodes) (2 * nodes.length + 1)
          ((inDegreeKeys nodes).filter (fun k => buildInDegree nodes k = 0))
          (buildInDegree nodes) [])
        else Except.error "Circular dependency detected in test DAG" := rfl
  rw [hdef, hr, if_neg hlen]

theorem cycle_detected_witness :
    (nodeIds [⟨"T1", ["T1"], false, 0, 60⟩]).Nodup ∧
    (∃ x, Relation.TransGen (depRel [(⟨"T1", ["T1"], false, 0, 60⟩ : TestNode)]) x x) ∧
    calculateExecutionOrder [⟨"T1", ["T1"], false, 0, 60⟩]
      = Except.error "Circular dependency detected in test DAG" := by
  have hedge : depRel [(⟨"T1", ["T1"], false, 0, 60⟩ : TestNode)] "T1" "T1" :=
    ⟨⟨"T1", ["T1"], false, 0, 60⟩, by simp, rfl, by simp⟩
  have hC : ∃ x, Relation.TransGen
      (depRel [(⟨"T1", ["T1"], false, 0, 60⟩ : TestNode)]) x x :=
    ⟨"T1", Relation.TransGen.single hedge⟩
  exact ⟨by decide, hC,
    cycle_detected [⟨"T1", ["T1"], false, 0, 60⟩] (by decide) (by decide) hC⟩

end QADemo
